import Mathlib

/-! Shallow embedding of the functional-calibration core of `source/align.py`
(repository Achyutace/ElectroFly) and proofs about it.

The Python code manipulates quaternions `[w, x, y, z]` and 3-vectors through
`numpy` and `scipy.spatial.transform.Rotation`.  The embedding models those
values over the reals:

* `Vec3`, `Quat` are records of real components;
* `scipy.Rotation.from_quat` normalizes its input, `R1 * R2` is the quaternion
  product, `.inv()` is conjugation of a unit quaternion, `.apply` is the
  sandwich product, `.as_rotvec` is the canonical (angle in `[0, pi]`)
  rotation vector — each is embedded as the corresponding exact real formula;
* `numpy.linalg.eigh` and `scipy.Rotation.mean` have no closed form; they are
  modelled as parameters (`principal`, `rotMean`) of the functions that call
  them, constrained where a claim needs it by the documented contract
  (`EigOk`: unit eigenvector of the largest eigenvalue; a rotation mean that
  depends on the sample set only through the accumulator matrix `Σ qᵢ qᵢᵀ`
  and returns a unit quaternion).
-/

noncomputable section

namespace ElectroFly

/-- Real 3-vector, the value type of numpy arrays of shape `(3,)`. -/
@[ext]
structure Vec3 where
  x : ℝ
  y : ℝ
  z : ℝ

/-- The zero 3-vector. -/
def vzero : Vec3 := ⟨0, 0, 0⟩

/-- Componentwise sum (numpy `+`). -/
def vadd (u v : Vec3) : Vec3 := ⟨u.x + v.x, u.y + v.y, u.z + v.z⟩

/-- Componentwise difference (numpy `-`). -/
def vsub (u v : Vec3) : Vec3 := ⟨u.x - v.x, u.y - v.y, u.z - v.z⟩

/-- Scalar multiple (numpy `c * v`). -/
def vsmul (c : ℝ) (v : Vec3) : Vec3 := ⟨c * v.x, c * v.y, c * v.z⟩

/-- Inner product (`np.dot`). -/
def dot (u v : Vec3) : ℝ := u.x * v.x + u.y * v.y + u.z * v.z

/-- Cross product (`np.cross`). -/
def cross (u v : Vec3) : Vec3 :=
  ⟨u.y * v.z - u.z * v.y, u.z * v.x - u.x * v.z, u.x * v.y - u.y * v.x⟩

/-- Squared Euclidean norm. -/
def vnormSq (v : Vec3) : ℝ := dot v v

/-- Euclidean norm (`np.linalg.norm`). -/
def vnorm (v : Vec3) : ℝ := Real.sqrt (vnormSq v)

/-- `v / np.linalg.norm(v)`, the normalization used throughout `align.py`.
Division is the total real division, so the degenerate input `v = 0` yields
the zero vector (Python produces NaN entries there; either way no unit vector
is produced). -/
def vnormalize (v : Vec3) : Vec3 := vsmul (vnorm v)⁻¹ v

/-- Quaternion in the repository's `[w, x, y, z]` component order. -/
@[ext]
structure Quat where
  w : ℝ
  x : ℝ
  y : ℝ
  z : ℝ

/-- The identity quaternion `[1, 0, 0, 0]` (`np.tile([1,0,0,0], ...)`). -/
def qOne : Quat := ⟨1, 0, 0, 0⟩

/-- Hamilton product; `scipy` composition `R1 * R2` on rotations. -/
def qmul (a b : Quat) : Quat :=
  ⟨a.w * b.w - a.x * b.x - a.y * b.y - a.z * b.z,
   a.w * b.x + a.x * b.w + a.y * b.z - a.z * b.y,
   a.w * b.y - a.x * b.z + a.y * b.w + a.z * b.x,
   a.w * b.z + a.x * b.y - a.y * b.x + a.z * b.w⟩

/-- Quaternion conjugate; `scipy` `.inv()` on (unit-normalized) rotations. -/
def qconj (q : Quat) : Quat := ⟨q.w, -q.x, -q.y, -q.z⟩

/-- Negation; the other representative of the same rotation. -/
def qneg (q : Quat) : Quat := ⟨-q.w, -q.x, -q.y, -q.z⟩

/-- Scalar multiple of a quaternion. -/
def qsmul (c : ℝ) (q : Quat) : Quat := ⟨c * q.w, c * q.x, c * q.y, c * q.z⟩

/-- Squared quaternion norm. -/
def qnormSq (q : Quat) : ℝ := q.w ^ 2 + q.x ^ 2 + q.y ^ 2 + q.z ^ 2

/-- Quaternion norm. -/
def qnorm (q : Quat) : ℝ := Real.sqrt (qnormSq q)

/-- Normalization performed by `scipy.Rotation.from_quat` on every input
quaternion. -/
def qnormalize (q : Quat) : Quat := qsmul (qnorm q)⁻¹ q

/-- Vector part of a quaternion. -/
def qvec (q : Quat) : Vec3 := ⟨q.x, q.y, q.z⟩

/-- Pure quaternion with a given vector part. -/
def pureQuat (v : Vec3) : Quat := ⟨0, v.x, v.y, v.z⟩

/-- `scipy` `Rotation.apply` for a stored (unit) quaternion: the sandwich
product `q · (0, v) · q̄`, keeping the vector part. -/
def qapply (q : Quat) (v : Vec3) : Vec3 :=
  qvec (qmul (qmul q (pureQuat v)) (qconj q))

/- Basic algebraic lemmas. -/

theorem qmul_assoc (a b c : Quat) : qmul (qmul a b) c = qmul a (qmul b c) := by
  simp only [qmul, Quat.mk.injEq]
  refine ⟨by ring, by ring, by ring, by ring⟩

theorem qmul_one (q : Quat) : qmul q qOne = q := by
  simp [qmul, qOne]

theorem one_qmul (q : Quat) : qmul qOne q = q := by
  simp [qmul, qOne]

theorem qconj_qmul_self (q : Quat) : qmul (qconj q) q = ⟨qnormSq q, 0, 0, 0⟩ := by
  simp only [qmul, qconj, qnormSq, Quat.mk.injEq]
  refine ⟨by ring, by ring, by ring, by ring⟩

theorem qmul_self_qconj (q : Quat) : qmul q (qconj q) = ⟨qnormSq q, 0, 0, 0⟩ := by
  simp only [qmul, qconj, qnormSq, Quat.mk.injEq]
  refine ⟨by ring, by ring, by ring, by ring⟩

theorem qnormSq_qmul (a b : Quat) : qnormSq (qmul a b) = qnormSq a * qnormSq b := by
  simp only [qmul, qnormSq]
  ring

theorem qnormSq_nonneg (q : Quat) : 0 ≤ qnormSq q := by
  simp only [qnormSq]
  positivity

theorem qnorm_qmul (a b : Quat) : qnorm (qmul a b) = qnorm a * qnorm b := by
  simp only [qnorm, qnormSq_qmul]
  exact Real.sqrt_mul (qnormSq_nonneg a) _

theorem qnorm_of_unit {q : Quat} (h : qnormSq q = 1) : qnorm q = 1 := by
  simp [qnorm, h]

theorem qnormalize_of_unit {q : Quat} (h : qnormSq q = 1) : qnormalize q = q := by
  simp [qnormalize, qnorm_of_unit h, qsmul]

theorem qsmul_qmul (c : ℝ) (a b : Quat) : qmul (qsmul c a) b = qsmul c (qmul a b) := by
  simp only [qmul, qsmul, Quat.mk.injEq]
  refine ⟨by ring, by ring, by ring, by ring⟩

theorem qmul_qsmul (c : ℝ) (a b : Quat) : qmul a (qsmul c b) = qsmul c (qmul a b) := by
  simp only [qmul, qsmul, Quat.mk.injEq]
  refine ⟨by ring, by ring, by ring, by ring⟩

theorem qsmul_qsmul (c d : ℝ) (q : Quat) : qsmul c (qsmul d q) = qsmul (c * d) q := by
  simp only [qsmul, Quat.mk.injEq]
  refine ⟨by ring, by ring, by ring, by ring⟩

theorem qnormSq_qsmul (c : ℝ) (q : Quat) : qnormSq (qsmul c q) = c ^ 2 * qnormSq q := by
  simp only [qsmul, qnormSq]
  ring

theorem qnorm_nonneg (q : Quat) : 0 ≤ qnorm q := Real.sqrt_nonneg _

/-- Normalization is multiplicative over the Hamilton product. -/
theorem qnormalize_qmul (a b : Quat) :
    qnormalize (qmul a b) = qmul (qnormalize a) (qnormalize b) := by
  simp only [qnormalize, qnorm_qmul, qsmul_qmul, qmul_qsmul, qsmul_qsmul]
  rw [mul_inv]
  ring_nf

/-- Normalization ignores a positive scale on its input. -/
theorem qnormalize_qsmul_pos {c : ℝ} (hc : 0 < c) (q : Quat) :
    qnormalize (qsmul c q) = qnormalize q := by
  have hc0 : c ≠ 0 := ne_of_gt hc
  simp only [qnormalize, qnorm, qnormSq_qsmul]
  rw [Real.sqrt_mul (by positivity), Real.sqrt_sq hc.le, qsmul_qsmul]
  congr 1
  rw [mul_inv, mul_comm (c⁻¹ * (Real.sqrt (qnormSq q))⁻¹) c, ← mul_assoc,
    mul_inv_cancel₀ hc0, one_mul]

theorem qnorm_qneg (q : Quat) : qnorm (qneg q) = qnorm q := by
  simp only [qnorm, qnormSq, qneg]
  ring_nf

/-- Normalization commutes with negation. -/
theorem qnormalize_qneg (q : Quat) : qnormalize (qneg q) = qneg (qnormalize q) := by
  unfold qnormalize
  rw [qnorm_qneg]
  simp only [qneg, qsmul, Quat.mk.injEq]
  refine ⟨by ring, by ring, by ring, by ring⟩

theorem qconj_qneg (q : Quat) : qconj (qneg q) = qneg (qconj q) := by
  simp [qconj, qneg]

theorem qmul_qneg_left (a b : Quat) : qmul (qneg a) b = qneg (qmul a b) := by
  simp only [qmul, qneg, Quat.mk.injEq]
  refine ⟨by ring, by ring, by ring, by ring⟩

theorem qmul_qneg_right (a b : Quat) : qmul a (qneg b) = qneg (qmul a b) := by
  simp only [qmul, qneg, Quat.mk.injEq]
  refine ⟨by ring, by ring, by ring, by ring⟩

theorem qneg_qneg (q : Quat) : qneg (qneg q) = q := by
  simp [qneg]

/-- The sandwich product of a unit quaternion preserves the squared norm. -/
theorem vnormSq_qapply {q : Quat} (h : qnormSq q = 1) (v : Vec3) :
    vnormSq (qapply q v) = vnormSq v := by
  have key : vnormSq (qapply q v) = qnormSq q ^ 2 * vnormSq v := by
    simp only [qapply, qmul, qconj, pureQuat, qvec, vnormSq, dot, qnormSq]
    ring
  rw [key, h]
  ring

theorem qapply_one (v : Vec3) : qapply qOne v = v := by
  simp [qapply, qmul, qconj, pureQuat, qvec, qOne]

theorem vnorm_of_unit {v : Vec3} (h : vnormSq v = 1) : vnorm v = 1 := by
  simp [vnorm, h]

theorem vnormalize_of_unit {v : Vec3} (h : vnormSq v = 1) : vnormalize v = v := by
  simp [vnormalize, vnorm_of_unit h, vsmul]

theorem vnormSq_nonneg (v : Vec3) : 0 ≤ vnormSq v := by
  simp only [vnormSq, dot]
  nlinarith [sq_nonneg v.x, sq_nonneg v.y, sq_nonneg v.z]

theorem vnormSq_vsmul (c : ℝ) (v : Vec3) : vnormSq (vsmul c v) = c ^ 2 * vnormSq v := by
  simp only [vsmul, vnormSq, dot]
  ring

/-- A nonzero vector has positive squared norm. -/
theorem vnormSq_pos {v : Vec3} (h : v ≠ vzero) : 0 < vnormSq v := by
  rcases lt_or_eq_of_le (vnormSq_nonneg v) with hp | hz
  · exact hp
  · exfalso
    apply h
    have hs : v.x ^ 2 + v.y ^ 2 + v.z ^ 2 = 0 := by
      simp only [vnormSq, dot] at hz
      nlinarith
    have hx0 : v.x = 0 := by nlinarith [sq_nonneg v.y, sq_nonneg v.z, sq_nonneg v.x]
    have hy0 : v.y = 0 := by nlinarith [sq_nonneg v.x, sq_nonneg v.z, sq_nonneg v.y]
    have hz0 : v.z = 0 := by nlinarith [sq_nonneg v.x, sq_nonneg v.y, sq_nonneg v.z]
    ext
    · exact hx0
    · exact hy0
    · exact hz0

/-- Normalizing a nonzero vector yields a unit vector. -/
theorem vnormSq_vnormalize {v : Vec3} (h : v ≠ vzero) : vnormSq (vnormalize v) = 1 := by
  have hp := vnormSq_pos h
  simp only [vnormalize, vnormSq_vsmul, vnorm]
  rw [← Real.sqrt_inv, Real.sq_sqrt (by positivity)]
  field_simp

/-! Rotation vectors.  `scipy.Rotation.as_rotvec` first flips the stored unit
quaternion so that `w ≥ 0` (only when `w < 0`), then returns
`(2 * atan2(|vec|, w) / |vec|) * vec`. -/

/-- Two-argument arctangent, `np.arctan2 y x`. -/
def atan2 (y x : ℝ) : ℝ :=
  if 0 < x then Real.arctan (y / x)
  else if x < 0 then
    (if 0 ≤ y then Real.arctan (y / x) + Real.pi else Real.arctan (y / x) - Real.pi)
  else (if 0 < y then Real.pi / 2 else if y < 0 then -(Real.pi / 2) else 0)

/-- Rotation-vector formula applied to an already sign-canonical quaternion. -/
def rotvecCore (q : Quat) : Vec3 :=
  if vnorm (qvec q) = 0 then vzero
  else vsmul (2 * atan2 (vnorm (qvec q)) q.w / vnorm (qvec q)) (qvec q)

/-- `scipy.Rotation.as_rotvec` on a stored unit quaternion: canonicalize the
sign so that `w ≥ 0` (strictly negative `w` is flipped; `w = 0` is kept as
stored), then apply the angle-axis formula. -/
def rotvec (q : Quat) : Vec3 :=
  rotvecCore (if q.w < 0 then qneg q else q)

/-! The relative-motion pipeline of `find_rotation_axis` (`align.py` lines
28-39). -/

/-- Line 33: `relative_rotation = dist_rot * prox_rot.inv()`, where both
streams were normalized on entry by `Rotation.from_quat`. -/
def relList (proximal_q distal_q : List Quat) : List Quat :=
  List.zipWith (fun d p => qmul (qnormalize d) (qconj (qnormalize p)))
    distal_q proximal_q

/-- Line 38: `relative_rotation[:-1].inv() * relative_rotation[1:]`, the
consecutive (non-circular) differences. -/
def deltaList (rel : List Quat) : List Quat :=
  List.zipWith (fun a b => qmul (qconj a) b) rel rel.tail

/-- Line 39: `relative_ang_vel = delta_relative_rotation.as_rotvec() * fs`. -/
def angVelList (proximal_q distal_q : List Quat) (fs : ℝ) : List Vec3 :=
  (deltaList (relList proximal_q distal_q)).map fun d => vsmul fs (rotvec d)

/-! 3×3 matrices, stored by rows. -/

/-- 3×3 real matrix given by its three rows. -/
@[ext]
structure Mat3 where
  r0 : Vec3
  r1 : Vec3
  r2 : Vec3

/-- Matrix-vector product. -/
def matVec (M : Mat3) (v : Vec3) : Vec3 := ⟨dot M.r0 v, dot M.r1 v, dot M.r2 v⟩

/-- First column. -/
def col0 (M : Mat3) : Vec3 := ⟨M.r0.x, M.r1.x, M.r2.x⟩

/-- Second column. -/
def col1 (M : Mat3) : Vec3 := ⟨M.r0.y, M.r1.y, M.r2.y⟩

/-- Third column. -/
def col2 (M : Mat3) : Vec3 := ⟨M.r0.z, M.r1.z, M.r2.z⟩

/-- Matrix with the given columns (`np.array([x, y, z]).T`). -/
def matOfCols (cx cy cz : Vec3) : Mat3 :=
  ⟨⟨cx.x, cy.x, cz.x⟩, ⟨cx.y, cy.y, cz.y⟩, ⟨cx.z, cy.z, cz.z⟩⟩

/-- Matrix product. -/
def matMul (A B : Mat3) : Mat3 :=
  ⟨⟨dot A.r0 (col0 B), dot A.r0 (col1 B), dot A.r0 (col2 B)⟩,
   ⟨dot A.r1 (col0 B), dot A.r1 (col1 B), dot A.r1 (col2 B)⟩,
   ⟨dot A.r2 (col0 B), dot A.r2 (col1 B), dot A.r2 (col2 B)⟩⟩

/-- Determinant of a 3×3 matrix. -/
def det3 (M : Mat3) : ℝ :=
  M.r0.x * (M.r1.y * M.r2.z - M.r1.z * M.r2.y)
    - M.r0.y * (M.r1.x * M.r2.z - M.r1.z * M.r2.x)
    + M.r0.z * (M.r1.x * M.r2.y - M.r1.y * M.r2.x)

/-! Sample covariance, `np.cov(relative_ang_vel.T)`: rows of the transposed
array are the three coordinates, observations are the velocity samples, and
the default divisor is `n - 1`. -/

/-- Sum of a list of vectors. -/
def vsum (ws : List Vec3) : Vec3 := ws.foldr vadd vzero

/-- Mean of a list of vectors. -/
def vmean (ws : List Vec3) : Vec3 := vsmul ((ws.length : ℝ))⁻¹ (vsum ws)

/-- One entry of the sample covariance matrix: coordinates selected by `f`
and `g`, centered at the mean, divisor `n - 1`. -/
def covEntry (ws : List Vec3) (f g : Vec3 → ℝ) : ℝ :=
  ((ws.map fun w => f (vsub w (vmean ws)) * g (vsub w (vmean ws))).sum)
    / ((ws.length : ℝ) - 1)

/-- The 3×3 sample covariance matrix of a list of velocity vectors. -/
def covMatrix (ws : List Vec3) : Mat3 :=
  ⟨⟨covEntry ws Vec3.x Vec3.x, covEntry ws Vec3.x Vec3.y, covEntry ws Vec3.x Vec3.z⟩,
   ⟨covEntry ws Vec3.y Vec3.x, covEntry ws Vec3.y Vec3.y, covEntry ws Vec3.y Vec3.z⟩,
   ⟨covEntry ws Vec3.z Vec3.x, covEntry ws Vec3.z Vec3.y, covEntry ws Vec3.z Vec3.z⟩⟩

/-! The two library calls without a closed form are abstracted as parameters:

* `principal : Mat3 → Vec3` stands for `np.linalg.eigh(...)[1][:, -1]`, the
  eigenvector column of the largest eigenvalue.  `numpy` documents `eigh` to
  return orthonormal eigenvectors with eigenvalues in ascending order; the
  contract a claim needs is `EigOk`.
* `rotMean : Mat4 → Quat` stands for `scipy.Rotation.mean`, which computes
  the largest-eigenvalue eigenvector of the accumulator `Σ qᵢ qᵢᵀ` of the
  stored unit quaternions; it therefore depends on the sample list only
  through that symmetric 4×4 matrix, which is how it is modelled here. -/

/-- 4×4 real matrices, used only as the accumulator fed to the rotation mean. -/
abbrev Mat4 : Type := Matrix (Fin 4) (Fin 4) ℝ

/-- Coordinates of a quaternion as a 4-vector. -/
def qCoord (q : Quat) : Fin 4 → ℝ := ![q.w, q.x, q.y, q.z]

/-- Outer product `q qᵀ` of a quaternion with itself. -/
def qOuter (q : Quat) : Mat4 := Matrix.of fun i j => qCoord q i * qCoord q j

/-- Accumulator matrix `Σ qᵢ qᵢᵀ` over a list of quaternions. -/
def qOuterSum (qs : List Quat) : Mat4 := (qs.map qOuter).sum

/-- Contract of `np.linalg.eigh(M)[1][:, -1]`: a unit eigenvector of `M`
whose eigenvalue is maximal among all eigenvalues of `M`. -/
def EigOk (M : Mat3) (p : Vec3) : Prop :=
  vnormSq p = 1 ∧
    ∃ lam, matVec M p = vsmul lam p ∧
      ∀ mu v, v ≠ vzero → matVec M v = vsmul mu v → mu ≤ lam

/-- Error raised by the calibration core.  `find_rotation_axis` raises
`ValueError("数据点太少…")` when fewer than two angular-velocity samples are
available; the specification names it `InsufficientDataError`. -/
inductive CalibError where
  | insufficientData : CalibError
deriving DecidableEq

/-- `find_rotation_axis` (`align.py` lines 13-56): relative rotations,
angular velocities, covariance eigen-analysis, and the transport of the
axis into the distal frame by the mean relative rotation.  `principal`
and `rotMean` model `np.linalg.eigh` and `scipy.Rotation.mean`. -/
def find_rotation_axis (principal : Mat3 → Vec3) (rotMean : Mat4 → Quat)
    (proximal_q distal_q : List Quat) (fs : ℝ) :
    Except CalibError (Vec3 × Vec3) :=
  let rel := relList proximal_q distal_q
  let relative_ang_vel := angVelList proximal_q distal_q fs
  if relative_ang_vel.length < 2 then .error .insufficientData
  else
    let covariance_matrix := covMatrix relative_ang_vel
    let axis_p := principal covariance_matrix
    let mean_relative_rotation := rotMean (qOuterSum rel)
    let axis_d := qapply mean_relative_rotation axis_p
    .ok (vnormalize axis_p, vnormalize axis_d)

/-- `create_anatomical_frame` (`align.py` lines 59-89): Gram-Schmidt style
construction of the anatomical frame, columns `(x, y, z)`.  The source has no
degenerate-axes check: each normalization divides by the computed norm
unconditionally. -/
def create_anatomical_frame (primary_axis longitudinal_axis : Vec3) : Mat3 :=
  let x_axis := vnormalize primary_axis
  let z_axis := vnormalize (cross x_axis longitudinal_axis)
  let y_axis := vnormalize (cross z_axis x_axis)
  matOfCols x_axis y_axis z_axis

/-! The orchestrator `perform_calibration` (`align.py` lines 92-172).  Trial
dictionaries are modelled as total maps from the string keys the code builds
(`f"{side}_thigh"` …) to quaternion streams; the returned dictionary is the
association list in insertion order.  `matToQuat` abstracts the
`Rotation.from_matrix(...).as_quat()` conversion whose value no claim
depends on. -/

/-- The fixed global "up" reference vector (`align.py` line 111). -/
def global_up_vector : Vec3 := ⟨0, 1, 0⟩

/-- Mean orientation of a static stream:
`Rotation.from_quat(...).mean()`, modelled through the accumulator matrix of
the normalized quaternions. -/
def staticMean (rotMean : Mat4 → Quat) (qs : List Quat) : Quat :=
  rotMean (qOuterSum (qs.map qnormalize))

/-- One iteration of the side loop of `perform_calibration` (lines 113-170):
static longitudinal axes, knee / hip / ankle functional axes, anatomical
frames, and the three calibration quaternions for this side.  The hip axis
(line 143) is used only in a printed diagnostic, so its value is dropped;
its failure, however, propagates. -/
def calibrate_side (principal : Mat3 → Vec3) (rotMean : Mat4 → Quat)
    (matToQuat : Mat3 → Quat)
    (static_data hip_data knee_data ankle_data : String → List Quat)
    (fs : ℝ) (side : String) : Except CalibError (List (String × Quat)) :=
  let thigh_long_axis :=
    qapply (qconj (staticMean rotMean (static_data (side ++ "_thigh")))) global_up_vector
  let shank_long_axis :=
    qapply (qconj (staticMean rotMean (static_data (side ++ "_shank")))) global_up_vector
  let foot_long_axis :=
    qapply (qconj (staticMean rotMean (static_data (side ++ "_foot")))) global_up_vector
  match find_rotation_axis principal rotMean (knee_data (side ++ "_thigh"))
      (knee_data (side ++ "_shank")) fs with
  | .error e => .error e
  | .ok knee_axes =>
    match find_rotation_axis principal rotMean
        (List.replicate (hip_data (side ++ "_thigh")).length qOne)
        (hip_data (side ++ "_thigh")) fs with
    | .error e => .error e
    | .ok _ =>
      match find_rotation_axis principal rotMean (ankle_data (side ++ "_shank"))
          (ankle_data (side ++ "_foot")) fs with
      | .error e => .error e
      | .ok ankle_axes =>
        let thigh_cal_rot := create_anatomical_frame knee_axes.1 thigh_long_axis
        let shank_cal_rot := create_anatomical_frame knee_axes.2 shank_long_axis
        let foot_cal_rot := create_anatomical_frame ankle_axes.2 foot_long_axis
        .ok [(side ++ "_thigh", matToQuat thigh_cal_rot),
             (side ++ "_shank", matToQuat shank_cal_rot),
             (side ++ "_foot", matToQuat foot_cal_rot)]

/-- `perform_calibration` (lines 92-172): the side loop over
`['left', 'right']`, accumulating the calibration dictionary. -/
def perform_calibration (principal : Mat3 → Vec3) (rotMean : Mat4 → Quat)
    (matToQuat : Mat3 → Quat)
    (static_data hip_data knee_data ankle_data : String → List Quat)
    (fs : ℝ) : Except CalibError (List (String × Quat)) :=
  match calibrate_side principal rotMean matToQuat static_data hip_data
      knee_data ankle_data fs "left" with
  | .error e => .error e
  | .ok left_quats =>
    match calibrate_side principal rotMean matToQuat static_data hip_data
        knee_data ankle_data fs "right" with
    | .error e => .error e
    | .ok right_quats => .ok (left_quats ++ right_quats)

/-! Calibration application (`align.py` lines 242-265, the `__main__`
block). -/

/-- Lines 252-257: `anatomical_rot = raw_rot * cal_rot.inv()`, with the
`from_quat` normalizations of both inputs and the defensive renormalization
of the composition. -/
def apply_calibration (raw_q q_cal : Quat) : Quat :=
  qnormalize (qmul (qnormalize raw_q) (qconj (qnormalize q_cal)))

/-- Modelled from the spec: the round-trip step of §8, "re-applying `cal`"
to an anatomical orientation, i.e. the composition `anatomical ∘ cal` with
the same defensive normalizations.  This step exists in the spec only; the
source applies the calibration but never re-applies it. -/
def recompose_calibration (anatomical q_cal : Quat) : Quat :=
  qnormalize (qmul anatomical (qnormalize q_cal))

/-- Rotation matrix of a unit quaternion `[w,x,y,z]` (`scipy` `as_matrix`). -/
def quatToMat (q : Quat) : Mat3 :=
  ⟨⟨1 - 2 * (q.y ^ 2 + q.z ^ 2), 2 * (q.x * q.y - q.w * q.z), 2 * (q.x * q.z + q.w * q.y)⟩,
   ⟨2 * (q.x * q.y + q.w * q.z), 1 - 2 * (q.x ^ 2 + q.z ^ 2), 2 * (q.y * q.z - q.w * q.x)⟩,
   ⟨2 * (q.x * q.z - q.w * q.y), 2 * (q.y * q.z + q.w * q.x), 1 - 2 * (q.x ^ 2 + q.y ^ 2)⟩⟩

/-- Elementary rotation about the x axis. -/
def Rx (t : ℝ) : Mat3 :=
  ⟨⟨1, 0, 0⟩, ⟨0, Real.cos t, -Real.sin t⟩, ⟨0, Real.sin t, Real.cos t⟩⟩

/-- Elementary rotation about the y axis. -/
def Ry (t : ℝ) : Mat3 :=
  ⟨⟨Real.cos t, 0, Real.sin t⟩, ⟨0, 1, 0⟩, ⟨-Real.sin t, 0, Real.cos t⟩⟩

/-- Elementary rotation about the z axis. -/
def Rz (t : ℝ) : Mat3 :=
  ⟨⟨Real.cos t, -Real.sin t, 0⟩, ⟨Real.sin t, Real.cos t, 0⟩, ⟨0, 0, 1⟩⟩

/-- `as_euler('xyz')` of `scipy` — lowercase sequence, hence EXTRINSIC
(fixed-axis) x-y-z angles: the triple `(a, b, c)` with
`M = Rz c · Ry b · Rx a`, `b ∈ [-pi/2, pi/2]`.  Embedded through the
classical entry formulas of the non-degenerate branch. -/
def asEulerXYZ (M : Mat3) : ℝ × ℝ × ℝ :=
  (atan2 M.r2.y M.r2.z, Real.arcsin (-M.r2.x), atan2 M.r1.x M.r0.x)

/-- Line 260: the Euler triple reported for the calibrated (anatomical)
orientation, `anatomical_rot.as_euler('xyz')` (radians; the source scales
to degrees for printing). -/
def calibration_euler (raw_q q_cal : Quat) : ℝ × ℝ × ℝ :=
  asEulerXYZ (quatToMat (apply_calibration raw_q q_cal))

/-- Intrinsic X-Y-Z composition: rotations about the moving body axes,
`Rx a · Ry b · Rz c`.  This is what the specification asserts the code
decomposes into. -/
def intrinsicXYZ (t : ℝ × ℝ × ℝ) : Mat3 :=
  matMul (Rx t.1) (matMul (Ry t.2.1) (Rz t.2.2))

/-- Extrinsic x-y-z composition, `Rz c · Ry b · Rx a`: what lowercase
`'xyz'` means in `scipy`. -/
def extrinsicXYZ (t : ℝ × ℝ × ℝ) : Mat3 :=
  matMul (Rz t.2.2) (matMul (Ry t.2.1) (Rx t.1))

/-! Lengths and elements of the pipeline lists. -/

theorem relList_length (proximal_q distal_q : List Quat) :
    (relList proximal_q distal_q).length = min distal_q.length proximal_q.length := by
  simp [relList, List.length_zipWith]

theorem deltaList_length (rel : List Quat) :
    (deltaList rel).length = rel.length - 1 := by
  simp only [deltaList, List.length_zipWith, List.length_tail]
  omega

theorem angVelList_length (proximal_q distal_q : List Quat) (fs : ℝ) :
    (angVelList proximal_q distal_q fs).length
      = min distal_q.length proximal_q.length - 1 := by
  simp only [angVelList, List.length_map, deltaList_length, relList_length]

theorem zipWith_getElem?_some {α β γ : Type} (f : α → β → γ) :
    ∀ (l : List α) (l' : List β) (i : ℕ) (a : α) (b : β),
      l[i]? = some a → l'[i]? = some b → (List.zipWith f l l')[i]? = some (f a b) := by
  intro l
  induction l with
  | nil => intro l' i a b ha _; simp at ha
  | cons x xs ih =>
    intro l' i a b ha hb
    cases l' with
    | nil => simp at hb
    | cons y ys =>
      cases i with
      | zero =>
        simp only [List.getElem?_cons_zero, Option.some.injEq] at ha hb
        simp [List.zipWith_cons_cons, ha, hb]
      | succ j =>
        simpa using ih ys j a b (by simpa using ha) (by simpa using hb)

theorem relList_getElem (proximal_q distal_q : List Quat) (i : ℕ) (qp qd : Quat)
    (hp : proximal_q[i]? = some qp) (hd : distal_q[i]? = some qd) :
    (relList proximal_q distal_q)[i]?
      = some (qmul (qnormalize qd) (qconj (qnormalize qp))) :=
  zipWith_getElem?_some _ _ _ _ _ _ hd hp

theorem deltaList_getElem (rel : List Quat) (i : ℕ) (a b : Quat)
    (ha : rel[i]? = some a) (hb : rel[i + 1]? = some b) :
    (deltaList rel)[i]? = some (qmul (qconj a) b) :=
  zipWith_getElem?_some _ _ _ _ _ _ ha (by rw [List.getElem?_tail]; exact hb)

theorem angVelList_getElem (proximal_q distal_q : List Quat) (fs : ℝ) (i : ℕ)
    (ra rb : Quat)
    (ha : (relList proximal_q distal_q)[i]? = some ra)
    (hb : (relList proximal_q distal_q)[i + 1]? = some rb) :
    (angVelList proximal_q distal_q fs)[i]?
      = some (vsmul fs (rotvec (qmul (qconj ra) rb))) := by
  simp only [angVelList]
  rw [List.getElem?_map _ _ i, deltaList_getElem _ _ _ _ ha hb]
  rfl

/-- C1: for every pair of equal-length unit orientation streams of length
`N ≥ 2` and every `fs > 0`, the relative-rotation sequence of
`find_rotation_axis` has length `N` with `rel[i] = distal[i] ∘ inverse(proximal[i])`,
and the angular-velocity sequence is built from consecutive (non-circular)
pairs only, `w[i] = axis_angle(inverse(rel[i]) ∘ rel[i+1]) * fs`, yielding
exactly `N - 1` vectors. -/
theorem find_rotation_axis_rel_and_angvel
    (proximal_q distal_q : List Quat) (fs : ℝ) (N : ℕ)
    (hp : proximal_q.length = N) (hd : distal_q.length = N)
    (hN : 2 ≤ N) (hfs : 0 < fs)
    (hup : ∀ q ∈ proximal_q, qnormSq q = 1)
    (hud : ∀ q ∈ distal_q, qnormSq q = 1) :
    (relList proximal_q distal_q).length = N
    ∧ (∀ (i : ℕ) qp qd, proximal_q[i]? = some qp → distal_q[i]? = some qd →
        (relList proximal_q distal_q)[i]? = some (qmul qd (qconj qp)))
    ∧ (angVelList proximal_q distal_q fs).length = N - 1
    ∧ (∀ (i : ℕ) ra rb, (relList proximal_q distal_q)[i]? = some ra →
        (relList proximal_q distal_q)[i + 1]? = some rb →
        (angVelList proximal_q distal_q fs)[i]?
          = some (vsmul fs (rotvec (qmul (qconj ra) rb)))) := by
  refine ⟨by simp [relList_length, hp, hd], ?_,
    by simp [angVelList_length, hp, hd], ?_⟩
  · intro i qp qd hpi hdi
    rw [relList_getElem _ _ _ _ _ hpi hdi,
      qnormalize_of_unit (hud qd (List.getElem?_mem hdi)),
      qnormalize_of_unit (hup qp (List.getElem?_mem hpi))]
  · intro i ra rb ha hb
    exact angVelList_getElem _ _ _ _ _ _ ha hb

/-- Concrete placeholder model for `np.linalg.eigh`, used in witnesses whose
claim does not constrain the eigen-decomposition. -/
def principal0 : Mat3 → Vec3 := fun _ => ⟨0, 0, 1⟩

/-- Concrete model for `scipy.Rotation.mean`: some fixed unit quaternion.
The claims below never depend on the mean's value, only on it being a unit
quaternion and a function of the accumulator matrix. -/
def rotMean0 : Mat4 → Quat := fun _ => qOne

theorem find_rotation_axis_rel_and_angvel_witness :
    (2 ≤ 2 ∧ (0 : ℝ) < 1 ∧ ∀ q ∈ [qOne, qOne], qnormSq q = 1)
    ∧ ((relList [qOne, qOne] [qOne, qOne]).length = 2
      ∧ (∀ (i : ℕ) qp qd, ([qOne, qOne] : List Quat)[i]? = some qp
          → ([qOne, qOne] : List Quat)[i]? = some qd →
          (relList [qOne, qOne] [qOne, qOne])[i]? = some (qmul qd (qconj qp)))
      ∧ (angVelList [qOne, qOne] [qOne, qOne] 1).length = 2 - 1
      ∧ (∀ (i : ℕ) ra rb, (relList [qOne, qOne] [qOne, qOne])[i]? = some ra →
          (relList [qOne, qOne] [qOne, qOne])[i + 1]? = some rb →
          (angVelList [qOne, qOne] [qOne, qOne] 1)[i]?
            = some (vsmul 1 (rotvec (qmul (qconj ra) rb))))) :=
  ⟨⟨le_refl 2, by norm_num,
      by intro q hq; rcases List.mem_cons.mp hq with h | h
          <;> simp_all [qnormSq, qOne]⟩,
    find_rotation_axis_rel_and_angvel [qOne, qOne] [qOne, qOne] 1 2 rfl rfl
      (le_refl 2) (by norm_num)
      (by intro q hq; rcases List.mem_cons.mp hq with h | h
            <;> simp_all [qnormSq, qOne])
      (by intro q hq; rcases List.mem_cons.mp hq with h | h
            <;> simp_all [qnormSq, qOne])⟩

/-- C4: with equal-length streams, `find_rotation_axis` raises the
insufficient-data error exactly when `N - 1 < 2`, and produces no axis pair
in that case (the two outcomes of `Except` are mutually exclusive). -/
theorem find_rotation_axis_insufficient_iff
    (principal : Mat3 → Vec3) (rotMean : Mat4 → Quat)
    (proximal_q distal_q : List Quat) (fs : ℝ)
    (hlen : proximal_q.length = distal_q.length) (hfs : 0 < fs) :
    (find_rotation_axis principal rotMean proximal_q distal_q fs
        = .error .insufficientData)
      ↔ distal_q.length - 1 < 2 := by
  have hl : (angVelList proximal_q distal_q fs).length = distal_q.length - 1 := by
    rw [angVelList_length, hlen, min_self]
  simp only [find_rotation_axis]
  split_ifs with h
  · rw [hl] at h
    exact iff_of_true rfl h
  · rw [hl] at h
    exact iff_of_false (by simp) h

theorem find_rotation_axis_insufficient_iff_witness :
    ([qOne, qOne] : List Quat).length = ([qOne, qOne] : List Quat).length
    ∧ (0 : ℝ) < 1
    ∧ find_rotation_axis principal0 rotMean0 [qOne, qOne] [qOne, qOne] 1
        = .error .insufficientData :=
  ⟨rfl, by norm_num,
    (find_rotation_axis_insufficient_iff principal0 rotMean0 [qOne, qOne]
      [qOne, qOne] 1 rfl (by norm_num)).mpr (by norm_num)⟩

theorem qnormSq_qconj (q : Quat) : qnormSq (qconj q) = qnormSq q := by
  simp only [qconj, qnormSq]
  ring

/-- C8: applying the calibration (`anatomical = raw ∘ inverse(cal)`) and then
re-applying `cal` recovers the raw unit orientation exactly. -/
theorem calibration_roundtrip (raw_q q_cal : Quat)
    (hraw : qnormSq raw_q = 1) (hcal : qnormSq q_cal = 1) :
    recompose_calibration (apply_calibration raw_q q_cal) q_cal = raw_q := by
  unfold recompose_calibration apply_calibration
  rw [qnormalize_of_unit hraw, qnormalize_of_unit hcal]
  have h2 : qnormSq (qmul raw_q (qconj q_cal)) = 1 := by
    rw [qnormSq_qmul, hraw, qnormSq_qconj, hcal]
    ring
  rw [qnormalize_of_unit h2, qmul_assoc, qconj_qmul_self, hcal]
  rw [show (⟨1, 0, 0, 0⟩ : Quat) = qOne from rfl, qmul_one,
    qnormalize_of_unit hraw]

theorem calibration_roundtrip_witness :
    qnormSq ⟨(3 : ℝ) / 5, 4 / 5, 0, 0⟩ = 1
    ∧ qnormSq ⟨(1 : ℝ) / 2, 1 / 2, 1 / 2, 1 / 2⟩ = 1
    ∧ recompose_calibration
        (apply_calibration ⟨(3 : ℝ) / 5, 4 / 5, 0, 0⟩
          ⟨(1 : ℝ) / 2, 1 / 2, 1 / 2, 1 / 2⟩)
        ⟨(1 : ℝ) / 2, 1 / 2, 1 / 2, 1 / 2⟩
      = ⟨(3 : ℝ) / 5, 4 / 5, 0, 0⟩ :=
  ⟨by norm_num [qnormSq], by norm_num [qnormSq],
    calibration_roundtrip _ _ (by norm_num [qnormSq]) (by norm_num [qnormSq])⟩

/-! Vector identities for the anatomical-frame construction. -/

theorem dot_comm (u v : Vec3) : dot u v = dot v u := by
  simp only [dot]
  ring

theorem dot_vsmul_left (c : ℝ) (u v : Vec3) : dot (vsmul c u) v = c * dot u v := by
  simp only [dot, vsmul]
  ring

theorem dot_self_cross (u v : Vec3) : dot u (cross u v) = 0 := by
  simp only [dot, cross]
  ring

theorem dot_cross_self (u v : Vec3) : dot v (cross u v) = 0 := by
  simp only [dot, cross]
  ring

/-- Lagrange identity for the cross product. -/
theorem vnormSq_cross (u v : Vec3) :
    vnormSq (cross u v) = vnormSq u * vnormSq v - dot u v ^ 2 := by
  simp only [vnormSq, dot, cross]
  ring

/-- Triple cross-product expansion `(a × b) × c = (a·c) b - (b·c) a`. -/
theorem cross_cross_left (a b c : Vec3) :
    cross (cross a b) c = vsub (vsmul (dot a c) b) (vsmul (dot b c) a) := by
  simp only [cross, vsub, vsmul, dot, Vec3.mk.injEq]
  refine ⟨by ring, by ring, by ring⟩

theorem det3_matOfCols (cx cy cz : Vec3) :
    det3 (matOfCols cx cy cz) = dot cx (cross cy cz) := by
  simp only [det3, matOfCols, dot, cross]
  ring

theorem col0_matOfCols (cx cy cz : Vec3) : col0 (matOfCols cx cy cz) = cx := rfl

theorem col1_matOfCols (cx cy cz : Vec3) : col1 (matOfCols cx cy cz) = cy := rfl

theorem col2_matOfCols (cx cy cz : Vec3) : col2 (matOfCols cx cy cz) = cz := rfl

theorem vnormSq_vzero : vnormSq vzero = 0 := by
  simp [vnormSq, dot, vzero]

theorem ne_vzero_of_unit {v : Vec3} (h : vnormSq v = 1) : v ≠ vzero := by
  intro hv
  rw [hv, vnormSq_vzero] at h
  exact one_ne_zero h.symm

/-- C3: for every non-degenerate input pair, the frame built by
`create_anatomical_frame` has columns
`x = normalize(primary)`, `z = normalize(cross(x, longitudinal))`,
`y = normalize(cross(z, x))` in `(x, y, z)` column order, with unit columns,
mutual orthogonality and determinant `+1`. -/
theorem create_anatomical_frame_orthonormal
    (primary_axis longitudinal_axis : Vec3)
    (hprim : primary_axis ≠ vzero)
    (hdeg : cross (vnormalize primary_axis) longitudinal_axis ≠ vzero) :
    col0 (create_anatomical_frame primary_axis longitudinal_axis)
        = vnormalize primary_axis
    ∧ col2 (create_anatomical_frame primary_axis longitudinal_axis)
        = vnormalize (cross (vnormalize primary_axis) longitudinal_axis)
    ∧ col1 (create_anatomical_frame primary_axis longitudinal_axis)
        = vnormalize (cross
            (col2 (create_anatomical_frame primary_axis longitudinal_axis))
            (col0 (create_anatomical_frame primary_axis longitudinal_axis)))
    ∧ vnorm (col0 (create_anatomical_frame primary_axis longitudinal_axis)) = 1
    ∧ vnorm (col1 (create_anatomical_frame primary_axis longitudinal_axis)) = 1
    ∧ vnorm (col2 (create_anatomical_frame primary_axis longitudinal_axis)) = 1
    ∧ dot (col0 (create_anatomical_frame primary_axis longitudinal_axis))
        (col1 (create_anatomical_frame primary_axis longitudinal_axis)) = 0
    ∧ dot (col0 (create_anatomical_frame primary_axis longitudinal_axis))
        (col2 (create_anatomical_frame primary_axis longitudinal_axis)) = 0
    ∧ dot (col1 (create_anatomical_frame primary_axis longitudinal_axis))
        (col2 (create_anatomical_frame primary_axis longitudinal_axis)) = 0
    ∧ det3 (create_anatomical_frame primary_axis longitudinal_axis) = 1 := by
  have hxu : vnormSq (vnormalize primary_axis) = 1 := vnormSq_vnormalize hprim
  have hzu : vnormSq (vnormalize (cross (vnormalize primary_axis) longitudinal_axis)) = 1 :=
    vnormSq_vnormalize hdeg
  set x := vnormalize primary_axis with hxdef
  set z := vnormalize (cross x longitudinal_axis) with hzdef
  have hzx : dot z x = 0 := by
    rw [hzdef, vnormalize, dot_vsmul_left, dot_comm (cross x longitudinal_axis) x,
      dot_self_cross, mul_zero]
  have hy0u : vnormSq (cross z x) = 1 := by
    rw [vnormSq_cross, hzu, hxu, hzx]
    ring
  have hyeq : vnormalize (cross z x) = cross z x := vnormalize_of_unit hy0u
  have hc0 : col0 (create_anatomical_frame primary_axis longitudinal_axis) = x := rfl
  have hc2 : col2 (create_anatomical_frame primary_axis longitudinal_axis) = z := rfl
  have hc1 : col1 (create_anatomical_frame primary_axis longitudinal_axis)
      = vnormalize (cross z x) := rfl
  refine ⟨hc0, hc2, ?_, ?_, ?_, ?_, ?_, ?_, ?_, ?_⟩
  · rw [hc1, hc0, hc2]
  · rw [hc0]
    exact vnorm_of_unit hxu
  · rw [hc1, hyeq]
    exact vnorm_of_unit hy0u
  · rw [hc2]
    exact vnorm_of_unit hzu
  · rw [hc0, hc1, hyeq]
    exact dot_cross_self z x
  · rw [hc0, hc2, dot_comm]
    exact hzx
  · rw [hc1, hc2, hyeq, dot_comm, dot_self_cross]
  · have hM : create_anatomical_frame primary_axis longitudinal_axis
        = matOfCols x (vnormalize (cross z x)) z := rfl
    rw [hM, det3_matOfCols, hyeq, cross_cross_left]
    have hdzz : dot z z = 1 := hzu
    have hdxz : dot x z = 0 := by rw [dot_comm]; exact hzx
    rw [hdzz, hdxz]
    have hsub : vsub (vsmul 1 x) (vsmul 0 z) = x := by
      simp only [vsub, vsmul, one_mul, zero_mul]
      ext <;> ring
    rw [hsub]
    exact hxu

theorem create_anatomical_frame_orthonormal_witness :
    ((⟨1, 0, 0⟩ : Vec3) ≠ vzero
      ∧ cross (vnormalize ⟨1, 0, 0⟩) ⟨0, 2, 1⟩ ≠ vzero)
    ∧ det3 (create_anatomical_frame ⟨1, 0, 0⟩ ⟨0, 2, 1⟩) = 1 := by
  have h1 : (⟨1, 0, 0⟩ : Vec3) ≠ vzero := by
    intro h
    have := congrArg Vec3.x h
    simp [vzero] at this
  have hn : vnormalize (⟨1, 0, 0⟩ : Vec3) = ⟨1, 0, 0⟩ :=
    vnormalize_of_unit (by norm_num [vnormSq, dot])
  have h2 : cross (vnormalize (⟨1, 0, 0⟩ : Vec3)) ⟨0, 2, 1⟩ ≠ vzero := by
    rw [hn]
    intro h
    have := congrArg Vec3.y h
    simp [cross, vzero] at this
  exact ⟨⟨h1, h2⟩,
    (create_anatomical_frame_orthonormal ⟨1, 0, 0⟩ ⟨0, 2, 1⟩ h1 h2).2.2.2.2.2.2.2.2.2⟩

/-- C5: at the degenerate input `primary = (1,0,0)`, `longitudinal = (2,0,0)`
the source raises nothing: `create_anatomical_frame` divides by the zero norm
of `cross(x, longitudinal)` and silently returns a frame whose second and
third columns are zero and whose determinant is `0` (in Python the division
emits NaN entries).  No `DegenerateAxesError` exists anywhere in the code. -/
theorem create_anatomical_frame_degenerate_silent :
    create_anatomical_frame ⟨1, 0, 0⟩ ⟨2, 0, 0⟩ = matOfCols ⟨1, 0, 0⟩ vzero vzero
    ∧ det3 (create_anatomical_frame ⟨1, 0, 0⟩ ⟨2, 0, 0⟩) = 0 := by
  have h1 : vnormalize (⟨1, 0, 0⟩ : Vec3) = ⟨1, 0, 0⟩ :=
    vnormalize_of_unit (by norm_num [vnormSq, dot])
  have h3 : vnormalize vzero = vzero := by
    simp [vnormalize, vzero, vnorm, vnormSq, dot, vsmul]
  have hEq : create_anatomical_frame ⟨1, 0, 0⟩ ⟨2, 0, 0⟩
      = matOfCols ⟨1, 0, 0⟩ vzero vzero := by
    simp only [create_anatomical_frame]
    rw [h1]
    have h2 : cross (⟨1, 0, 0⟩ : Vec3) ⟨2, 0, 0⟩ = vzero := by
      simp [cross, vzero]
    rw [h2, h3]
    have h4 : cross vzero (⟨1, 0, 0⟩ : Vec3) = vzero := by
      simp [cross, vzero]
    rw [h4, h3]
  exact ⟨hEq, by rw [hEq]; norm_num [det3, matOfCols, vzero]⟩

/-! The success branch of `find_rotation_axis` and the eigen-axis contract. -/

theorem qconj_qmul (a b : Quat) : qconj (qmul a b) = qmul (qconj b) (qconj a) := by
  simp only [qconj, qmul, Quat.mk.injEq]
  refine ⟨by ring, by ring, by ring, by ring⟩

theorem find_rotation_axis_ok (principal : Mat3 → Vec3) (rotMean : Mat4 → Quat)
    (proximal_q distal_q : List Quat) (fs : ℝ)
    (h : ¬ (angVelList proximal_q distal_q fs).length < 2) :
    find_rotation_axis principal rotMean proximal_q distal_q fs
      = .ok (vnormalize (principal (covMatrix (angVelList proximal_q distal_q fs))),
          vnormalize (qapply (rotMean (qOuterSum (relList proximal_q distal_q)))
            (principal (covMatrix (angVelList proximal_q distal_q fs))))) := by
  simp only [find_rotation_axis]
  rw [if_neg h]

/-- C2: under the documented contracts of the eigen-decomposition and the
rotation mean, `find_rotation_axis` succeeds on streams with at least two
angular-velocity samples and returns an `axis_p` that is a unit eigenvector
of the largest eigenvalue of the covariance of the angular velocities, and
an `axis_d` that is the trial's mean relative rotation applied to `axis_p`;
both are unit vectors. -/
theorem find_rotation_axis_axes_spec
    (principal : Mat3 → Vec3) (rotMean : Mat4 → Quat)
    (proximal_q distal_q : List Quat) (fs : ℝ)
    (hlen : proximal_q.length = distal_q.length) (hN : 3 ≤ distal_q.length)
    (heig : EigOk (covMatrix (angVelList proximal_q distal_q fs))
        (principal (covMatrix (angVelList proximal_q distal_q fs))))
    (hmean : qnormSq (rotMean (qOuterSum (relList proximal_q distal_q))) = 1) :
    ∃ axis_p axis_d,
      find_rotation_axis principal rotMean proximal_q distal_q fs
          = .ok (axis_p, axis_d)
      ∧ EigOk (covMatrix (angVelList proximal_q distal_q fs)) axis_p
      ∧ vnormSq axis_p = 1
      ∧ axis_d = vnormalize
          (qapply (rotMean (qOuterSum (relList proximal_q distal_q))) axis_p)
      ∧ vnormSq axis_d = 1 := by
  have hcond : ¬ (angVelList proximal_q distal_q fs).length < 2 := by
    rw [angVelList_length, hlen, min_self]
    omega
  have hp1 : vnormSq (principal (covMatrix (angVelList proximal_q distal_q fs))) = 1 :=
    heig.1
  have hnp : vnormalize (principal (covMatrix (angVelList proximal_q distal_q fs)))
      = principal (covMatrix (angVelList proximal_q distal_q fs)) :=
    vnormalize_of_unit hp1
  refine ⟨_, _,
    find_rotation_axis_ok principal rotMean proximal_q distal_q fs hcond,
    ?_, ?_, ?_, ?_⟩
  · rw [hnp]
    exact heig
  · rw [hnp]
    exact hp1
  · rw [hnp]
  · have happ : vnormSq (qapply (rotMean (qOuterSum (relList proximal_q distal_q)))
        (principal (covMatrix (angVelList proximal_q distal_q fs)))) = 1 := by
      rw [vnormSq_qapply hmean, hp1]
    exact vnormSq_vnormalize (ne_vzero_of_unit happ)

/-! Concrete data used to exercise the pipeline: three-sample streams whose
relative rotations are rational unit quaternions about a single axis. -/

/-- Proximal test stream: the fixed identity orientation. -/
def proxA : List Quat := [qOne, qOne, qOne]

/-- Distal test stream: successive rotations about the x axis through the
rational points `(3/5, 4/5)` and `(5/13, 12/13)` of the circle. -/
def distA : List Quat :=
  [qOne, ⟨3/5, 4/5, 0, 0⟩, ⟨-33/65, 56/65, 0, 0⟩]

/-- The constant rotation of the invariance claims: a 120° turn about
`(1,1,1)/√3`, which maps the x axis to the y axis. -/
def Cq : Quat := ⟨1/2, 1/2, 1/2, 1/2⟩

/-- A model of `np.linalg.eigh(...)[1][:, -1]` adequate for the diagonal
covariance matrices arising from single-axis motion: pick the coordinate
axis of the larger of the two relevant diagonal entries. -/
def principalDiag : Mat3 → Vec3 :=
  fun M => if M.r0.x < M.r1.y then ⟨0, 1, 0⟩ else ⟨1, 0, 0⟩

/-- Rotation angle of the first relative step of `distA`. -/
def angleA : ℝ := 2 * Real.arctan (4 / 3)

/-- Rotation angle of the second relative step of `distA`. -/
def angleB : ℝ := 2 * Real.arctan (12 / 5)

theorem atan2_of_pos (y x : ℝ) (hx : 0 < x) : atan2 y x = Real.arctan (y / x) :=
  if_pos hx

theorem vnorm_x (v : ℝ) (hv : 0 ≤ v) : vnorm ⟨v, 0, 0⟩ = v := by
  show Real.sqrt (v * v + 0 * 0 + 0 * 0) = v
  rw [show v * v + (0:ℝ) * 0 + 0 * 0 = v ^ 2 by ring, Real.sqrt_sq hv]

theorem vnorm_y (v : ℝ) (hv : 0 ≤ v) : vnorm ⟨0, v, 0⟩ = v := by
  show Real.sqrt (0 * 0 + v * v + 0 * 0) = v
  rw [show (0:ℝ) * 0 + v * v + 0 * 0 = v ^ 2 by ring, Real.sqrt_sq hv]

theorem rotvec_xpos (w v : ℝ) (hw : ¬ w < 0) (hv : 0 < v) :
    rotvec ⟨w, v, 0, 0⟩ = ⟨2 * atan2 v w, 0, 0⟩ := by
  unfold rotvec
  rw [if_neg hw]
  unfold rotvecCore
  have hn : vnorm (qvec ⟨w, v, 0, 0⟩) = v := vnorm_x v hv.le
  rw [hn, if_neg (ne_of_gt hv)]
  have hv0 : v ≠ 0 := ne_of_gt hv
  ext
  · show 2 * atan2 v w / v * v = 2 * atan2 v w
    field_simp
  · show 2 * atan2 v w / v * 0 = 0
    ring
  · show 2 * atan2 v w / v * 0 = 0
    ring

theorem rotvec_ypos (w v : ℝ) (hw : ¬ w < 0) (hv : 0 < v) :
    rotvec ⟨w, 0, v, 0⟩ = ⟨0, 2 * atan2 v w, 0⟩ := by
  unfold rotvec
  rw [if_neg hw]
  unfold rotvecCore
  have hn : vnorm (qvec ⟨w, 0, v, 0⟩) = v := vnorm_y v hv.le
  rw [hn, if_neg (ne_of_gt hv)]
  have hv0 : v ≠ 0 := ne_of_gt hv
  ext
  · show 2 * atan2 v w / v * 0 = 0
    ring
  · show 2 * atan2 v w / v * v = 2 * atan2 v w
    field_simp
  · show 2 * atan2 v w / v * 0 = 0
    ring

/-! Evaluation of the pipeline on the concrete streams. -/

theorem relList_threeA :
    relList proxA distA = [qOne, ⟨3/5, 4/5, 0, 0⟩, ⟨-33/65, 56/65, 0, 0⟩] := by
  have h0 : qnormalize qOne = qOne := qnormalize_of_unit (by norm_num [qnormSq, qOne])
  have h1 : qnormalize (⟨3/5, 4/5, 0, 0⟩ : Quat) = ⟨3/5, 4/5, 0, 0⟩ :=
    qnormalize_of_unit (by norm_num [qnormSq])
  have h2 : qnormalize (⟨-33/65, 56/65, 0, 0⟩ : Quat) = ⟨-33/65, 56/65, 0, 0⟩ :=
    qnormalize_of_unit (by norm_num [qnormSq])
  simp only [relList, proxA, distA, List.zipWith_cons_cons, List.zipWith_nil_left,
    h0, h1, h2]
  norm_num [qmul, qconj, qOne]

theorem deltaList_threeA :
    deltaList [qOne, ⟨3/5, 4/5, 0, 0⟩, ⟨-33/65, 56/65, 0, 0⟩]
      = [⟨3/5, 4/5, 0, 0⟩, ⟨5/13, 12/13, 0, 0⟩] := by
  simp only [deltaList, List.tail_cons, List.zipWith_cons_cons, List.zipWith_nil_left]
  norm_num [qmul, qconj, qOne]

theorem angVelList_threeA :
    angVelList proxA distA 1 = [⟨angleA, 0, 0⟩, ⟨angleB, 0, 0⟩] := by
  unfold angVelList
  rw [relList_threeA, deltaList_threeA]
  simp only [List.map_cons, List.map_nil]
  rw [rotvec_xpos (3/5) (4/5) (by norm_num) (by norm_num),
    rotvec_xpos (5/13) (12/13) (by norm_num) (by norm_num),
    atan2_of_pos (4/5) (3/5) (by norm_num),
    atan2_of_pos (12/13) (5/13) (by norm_num)]
  norm_num [vsmul, angleA, angleB]

theorem covMatrix_pair_x (a b : ℝ) :
    covMatrix [⟨a, 0, 0⟩, ⟨b, 0, 0⟩]
      = ⟨⟨(a - b) ^ 2 / 2, 0, 0⟩, ⟨0, 0, 0⟩, ⟨0, 0, 0⟩⟩ := by
  ext <;>
    simp only [covMatrix, covEntry, vmean, vsum, List.foldr_cons, List.foldr_nil,
      vadd, vzero, vsub, vsmul, List.map_cons, List.map_nil, List.sum_cons,
      List.sum_nil, List.length_cons, List.length_nil] <;>
    push_cast <;> field_simp <;> ring

theorem covMatrix_pair_y (a b : ℝ) :
    covMatrix [⟨0, a, 0⟩, ⟨0, b, 0⟩]
      = ⟨⟨0, 0, 0⟩, ⟨0, (a - b) ^ 2 / 2, 0⟩, ⟨0, 0, 0⟩⟩ := by
  ext <;>
    simp only [covMatrix, covEntry, vmean, vsum, List.foldr_cons, List.foldr_nil,
      vadd, vzero, vsub, vsmul, List.map_cons, List.map_nil, List.sum_cons,
      List.sum_nil, List.length_cons, List.length_nil] <;>
    push_cast <;> field_simp <;> ring

/-- The first coordinate axis is a top eigenvector of `diag(v1, 0, 0)` for
`v1 ≥ 0`. -/
theorem eigOk_diag_x (v1 : ℝ) (h0 : 0 ≤ v1) :
    EigOk ⟨⟨v1, 0, 0⟩, ⟨0, 0, 0⟩, ⟨0, 0, 0⟩⟩ ⟨1, 0, 0⟩ := by
  refine ⟨by norm_num [vnormSq, dot], v1, ?_, ?_⟩
  · ext <;> simp [matVec, dot, vsmul]
  · intro mu v hv hMv
    have hx := congrArg Vec3.x hMv
    have hy := congrArg Vec3.y hMv
    have hz := congrArg Vec3.z hMv
    simp only [matVec, dot, vsmul] at hx hy hz
    by_contra hgt
    push_neg at hgt
    have hmu0 : mu ≠ 0 := by
      intro h
      rw [h] at hgt
      exact absurd h0 (not_le.mpr hgt)
    have hvy : v.y = 0 := by
      have h : mu * v.y = 0 := by linarith
      exact (mul_eq_zero.mp h).resolve_left hmu0
    have hvz : v.z = 0 := by
      have h : mu * v.z = 0 := by linarith
      exact (mul_eq_zero.mp h).resolve_left hmu0
    have hvx : v.x = 0 := by
      have h : (v1 - mu) * v.x = 0 := by linarith
      exact (mul_eq_zero.mp h).resolve_left
        (sub_ne_zero_of_ne (ne_of_lt hgt))
    exact hv (by ext <;> simp [vzero, hvx, hvy, hvz])

/-- The second coordinate axis is a top eigenvector of `diag(0, v2, 0)` for
`v2 ≥ 0`. -/
theorem eigOk_diag_y (v2 : ℝ) (h0 : 0 ≤ v2) :
    EigOk ⟨⟨0, 0, 0⟩, ⟨0, v2, 0⟩, ⟨0, 0, 0⟩⟩ ⟨0, 1, 0⟩ := by
  refine ⟨by norm_num [vnormSq, dot], v2, ?_, ?_⟩
  · ext <;> simp [matVec, dot, vsmul]
  · intro mu v hv hMv
    have hx := congrArg Vec3.x hMv
    have hy := congrArg Vec3.y hMv
    have hz := congrArg Vec3.z hMv
    simp only [matVec, dot, vsmul] at hx hy hz
    by_contra hgt
    push_neg at hgt
    have hmu0 : mu ≠ 0 := by
      intro h
      rw [h] at hgt
      exact absurd h0 (not_le.mpr hgt)
    have hvx : v.x = 0 := by
      have h : mu * v.x = 0 := by linarith
      exact (mul_eq_zero.mp h).resolve_left hmu0
    have hvz : v.z = 0 := by
      have h : mu * v.z = 0 := by linarith
      exact (mul_eq_zero.mp h).resolve_left hmu0
    have hvy : v.y = 0 := by
      have h : (v2 - mu) * v.y = 0 := by linarith
      exact (mul_eq_zero.mp h).resolve_left
        (sub_ne_zero_of_ne (ne_of_lt hgt))
    exact hv (by ext <;> simp [vzero, hvx, hvy, hvz])

theorem angleA_ne_angleB : angleA ≠ angleB := by
  unfold angleA angleB
  intro h
  have h2 : Real.arctan (4 / 3) = Real.arctan (12 / 5) := by linarith
  have := Real.arctan_injective h2
  norm_num at this

theorem covA_gap_nonneg : (0:ℝ) ≤ (angleA - angleB) ^ 2 / 2 := by positivity

theorem covA_gap_pos : (0:ℝ) < (angleA - angleB) ^ 2 / 2 := by
  have hne : angleA - angleB ≠ 0 := sub_ne_zero_of_ne angleA_ne_angleB
  have h2 : (angleA - angleB) ^ 2 ≠ 0 := pow_ne_zero 2 hne
  have h3 : 0 < (angleA - angleB) ^ 2 := (sq_nonneg _).lt_of_ne (Ne.symm h2)
  linarith

/-- The eigen contract holds for the run on the raw streams with the
concrete `principalDiag` model. -/
theorem eig_runA : EigOk (covMatrix (angVelList proxA distA 1))
    (principalDiag (covMatrix (angVelList proxA distA 1))) := by
  rw [angVelList_threeA, covMatrix_pair_x]
  simp only [principalDiag]
  rw [if_neg (not_lt.mpr covA_gap_nonneg)]
  exact eigOk_diag_x _ covA_gap_nonneg

/-- Value of `find_rotation_axis` on the raw streams. -/
theorem find_runA : find_rotation_axis principalDiag rotMean0 proxA distA 1
    = .ok (⟨1, 0, 0⟩, ⟨1, 0, 0⟩) := by
  have hcond : ¬ (angVelList proxA distA 1).length < 2 := by
    rw [angVelList_threeA]
    norm_num
  rw [find_rotation_axis_ok _ _ _ _ _ hcond, angVelList_threeA, covMatrix_pair_x]
  simp only [principalDiag, rotMean0]
  rw [if_neg (not_lt.mpr covA_gap_nonneg)]
  rw [vnormalize_of_unit (by norm_num [vnormSq, dot]), qapply_one,
    vnormalize_of_unit (by norm_num [vnormSq, dot])]

/-! The same pipeline after left-multiplying every sample of both streams by
the constant rotation `Cq`. -/

theorem map_Cq_proxA : proxA.map (fun q => qmul Cq q) = [Cq, Cq, Cq] := by
  simp [proxA, List.map_cons, qmul_one]

theorem map_Cq_distA : distA.map (fun q => qmul Cq q)
    = [Cq, ⟨-1/10, 7/10, 7/10, -1/10⟩, ⟨-89/130, 23/130, 23/130, -89/130⟩] := by
  simp only [distA, List.map_cons, List.map_nil]
  norm_num [qmul, qconj, Cq, qOne]

theorem relList_threeB :
    relList [Cq, Cq, Cq]
        [Cq, ⟨-1/10, 7/10, 7/10, -1/10⟩, ⟨-89/130, 23/130, 23/130, -89/130⟩]
      = [qOne, ⟨3/5, 0, 4/5, 0⟩, ⟨-33/65, 0, 56/65, 0⟩] := by
  have hC : qnormalize Cq = Cq := qnormalize_of_unit (by norm_num [qnormSq, Cq])
  have h1 : qnormalize (⟨-1/10, 7/10, 7/10, -1/10⟩ : Quat)
      = ⟨-1/10, 7/10, 7/10, -1/10⟩ := qnormalize_of_unit (by norm_num [qnormSq])
  have h2 : qnormalize (⟨-89/130, 23/130, 23/130, -89/130⟩ : Quat)
      = ⟨-89/130, 23/130, 23/130, -89/130⟩ :=
    qnormalize_of_unit (by norm_num [qnormSq])
  simp only [relList, List.zipWith_cons_cons, List.zipWith_nil_left, hC, h1, h2]
  norm_num [qmul, qconj, Cq, qOne]

theorem deltaList_threeB :
    deltaList [qOne, ⟨3/5, 0, 4/5, 0⟩, ⟨-33/65, 0, 56/65, 0⟩]
      = [⟨3/5, 0, 4/5, 0⟩, ⟨5/13, 0, 12/13, 0⟩] := by
  simp only [deltaList, List.tail_cons, List.zipWith_cons_cons, List.zipWith_nil_left]
  norm_num [qmul, qconj, qOne]

theorem angVelList_threeB :
    angVelList [Cq, Cq, Cq]
        [Cq, ⟨-1/10, 7/10, 7/10, -1/10⟩, ⟨-89/130, 23/130, 23/130, -89/130⟩] 1
      = [⟨0, angleA, 0⟩, ⟨0, angleB, 0⟩] := by
  unfold angVelList
  rw [relList_threeB, deltaList_threeB]
  simp only [List.map_cons, List.map_nil]
  rw [rotvec_ypos (3/5) (4/5) (by norm_num) (by norm_num),
    rotvec_ypos (5/13) (12/13) (by norm_num) (by norm_num),
    atan2_of_pos (4/5) (3/5) (by norm_num),
    atan2_of_pos (12/13) (5/13) (by norm_num)]
  norm_num [vsmul, angleA, angleB]

/-- The eigen contract holds for the run on the left-multiplied streams with
the concrete `principalDiag` model. -/
theorem eig_runB : EigOk
    (covMatrix (angVelList (proxA.map fun q => qmul Cq q)
      (distA.map fun q => qmul Cq q) 1))
    (principalDiag (covMatrix (angVelList (proxA.map fun q => qmul Cq q)
      (distA.map fun q => qmul Cq q) 1))) := by
  rw [map_Cq_proxA, map_Cq_distA, angVelList_threeB, covMatrix_pair_y]
  simp only [principalDiag]
  rw [if_pos covA_gap_pos]
  exact eigOk_diag_y _ covA_gap_nonneg

/-- Value of `find_rotation_axis` on the left-multiplied streams. -/
theorem find_runB : find_rotation_axis principalDiag rotMean0
    (proxA.map fun q => qmul Cq q) (distA.map fun q => qmul Cq q) 1
    = .ok (⟨0, 1, 0⟩, ⟨0, 1, 0⟩) := by
  rw [map_Cq_proxA, map_Cq_distA]
  have hcond : ¬ (angVelList [Cq, Cq, Cq]
      [Cq, ⟨-1/10, 7/10, 7/10, -1/10⟩, ⟨-89/130, 23/130, 23/130, -89/130⟩] 1).length
        < 2 := by
    rw [angVelList_threeB]
    norm_num
  rw [find_rotation_axis_ok _ _ _ _ _ hcond, angVelList_threeB, covMatrix_pair_y]
  simp only [principalDiag, rotMean0]
  rw [if_pos covA_gap_pos]
  rw [vnormalize_of_unit (by norm_num [vnormSq, dot]), qapply_one,
    vnormalize_of_unit (by norm_num [vnormSq, dot])]

theorem find_rotation_axis_axes_spec_witness :
    (proxA.length = distA.length ∧ 3 ≤ distA.length
      ∧ EigOk (covMatrix (angVelList proxA distA 1))
          (principalDiag (covMatrix (angVelList proxA distA 1)))
      ∧ qnormSq (rotMean0 (qOuterSum (relList proxA distA))) = 1)
    ∧ (∃ axis_p axis_d,
        find_rotation_axis principalDiag rotMean0 proxA distA 1
            = .ok (axis_p, axis_d)
        ∧ EigOk (covMatrix (angVelList proxA distA 1)) axis_p
        ∧ vnormSq axis_p = 1
        ∧ axis_d = vnormalize
            (qapply (rotMean0 (qOuterSum (relList proxA distA))) axis_p)
        ∧ vnormSq axis_d = 1) :=
  ⟨⟨rfl, by simp [distA], eig_runA, by norm_num [rotMean0, qnormSq, qOne]⟩,
    find_rotation_axis_axes_spec principalDiag rotMean0 proxA distA 1 rfl
      (by simp [distA]) eig_runA (by norm_num [rotMean0, qnormSq, qOne])⟩

/-- C6 counterexample: with a valid model of the eigen-decomposition
(`EigOk` holds at both covariance matrices, and no sign choice can repair
it, since the two top eigenspaces are orthogonal) and a unit rotation mean,
left-multiplying every sample of both streams by the constant rotation `Cq`
changes the returned axes: the relative rotation is conjugated, not
preserved, so the axis rotates with `Cq`. -/
theorem left_composition_changes_axes :
    (∀ M, qnormSq (rotMean0 M) = 1)
    ∧ qnormSq Cq = 1
    ∧ EigOk (covMatrix (angVelList proxA distA 1))
        (principalDiag (covMatrix (angVelList proxA distA 1)))
    ∧ EigOk (covMatrix (angVelList (proxA.map fun q => qmul Cq q)
          (distA.map fun q => qmul Cq q) 1))
        (principalDiag (covMatrix (angVelList (proxA.map fun q => qmul Cq q)
          (distA.map fun q => qmul Cq q) 1)))
    ∧ find_rotation_axis principalDiag rotMean0 (proxA.map fun q => qmul Cq q)
        (distA.map fun q => qmul Cq q) 1
      ≠ find_rotation_axis principalDiag rotMean0 proxA distA 1 := by
  refine ⟨fun M => by norm_num [rotMean0, qnormSq, qOne],
    by norm_num [qnormSq, Cq], eig_runA, eig_runB, ?_⟩
  rw [find_runA, find_runB]
  intro h
  simp only [Except.ok.injEq, Prod.mk.injEq, Vec3.mk.injEq] at h
  norm_num at h

/-- C6 amended: composing every sample of both streams on the RIGHT with the
same constant unit rotation (`q ↦ q ∘ C`) leaves the relative-rotation
sequence literally unchanged, hence both returned axes unchanged, for every
model of the eigen-decomposition and of the rotation mean.  (Composing on
the left, `q ↦ C ∘ q`, conjugates the relative rotation and rotates both
axes by `C`, as the counterexample shows.) -/
theorem right_composition_invariance
    (principal : Mat3 → Vec3) (rotMean : Mat4 → Quat) (C : Quat)
    (hC : qnormSq C = 1) (proximal_q distal_q : List Quat) (fs : ℝ) :
    find_rotation_axis principal rotMean (proximal_q.map fun q => qmul q C)
        (distal_q.map fun q => qmul q C) fs
      = find_rotation_axis principal rotMean proximal_q distal_q fs := by
  have hfun : ∀ d p : Quat,
      qmul (qnormalize (qmul d C)) (qconj (qnormalize (qmul p C)))
        = qmul (qnormalize d) (qconj (qnormalize p)) := by
    intro d p
    rw [qnormalize_qmul d C, qnormalize_qmul p C, qnormalize_of_unit hC,
      qconj_qmul, qmul_assoc, ← qmul_assoc C (qconj C), qmul_self_qconj, hC,
      show (⟨1, 0, 0, 0⟩ : Quat) = qOne from rfl, one_qmul]
  have hrel : relList (proximal_q.map fun q => qmul q C)
      (distal_q.map fun q => qmul q C) = relList proximal_q distal_q := by
    unfold relList
    rw [List.zipWith_map]
    congr 1
    funext d p
    exact hfun d p
  have hang : angVelList (proximal_q.map fun q => qmul q C)
      (distal_q.map fun q => qmul q C) fs = angVelList proximal_q distal_q fs := by
    unfold angVelList
    rw [hrel]
  simp only [find_rotation_axis]
  rw [hang, hrel]

theorem right_composition_invariance_witness :
    qnormSq Cq = 1
    ∧ find_rotation_axis principal0 rotMean0 (proxA.map fun q => qmul q Cq)
        (distA.map fun q => qmul q Cq) 1
      = find_rotation_axis principal0 rotMean0 proxA distA 1 :=
  ⟨by norm_num [qnormSq, Cq],
    right_composition_invariance principal0 rotMean0 Cq
      (by norm_num [qnormSq, Cq]) proxA distA 1⟩

/-! C9: the hip trial feeds only the printed diagnostic. -/

theorem calibrate_side_hip_independent (principal : Mat3 → Vec3)
    (rotMean : Mat4 → Quat) (matToQuat : Mat3 → Quat)
    (static_data hip1 hip2 knee_data ankle_data : String → List Quat)
    (fs : ℝ) (side : String)
    (hh1 : 3 ≤ (hip1 (side ++ "_thigh")).length)
    (hh2 : 3 ≤ (hip2 (side ++ "_thigh")).length) :
    calibrate_side principal rotMean matToQuat static_data hip1 knee_data
        ankle_data fs side
      = calibrate_side principal rotMean matToQuat static_data hip2 knee_data
        ankle_data fs side := by
  have key : ∀ h : List Quat, 3 ≤ h.length → ∃ pr,
      find_rotation_axis principal rotMean (List.replicate h.length qOne) h fs
        = .ok pr := by
    intro h hlen
    have hcond : ¬ (angVelList (List.replicate h.length qOne) h fs).length < 2 := by
      rw [angVelList_length, List.length_replicate, min_self]
      omega
    exact ⟨_, find_rotation_axis_ok _ _ _ _ _ hcond⟩
  obtain ⟨pr1, hpr1⟩ := key _ hh1
  obtain ⟨pr2, hpr2⟩ := key _ hh2
  cases hknee : find_rotation_axis principal rotMean (knee_data (side ++ "_thigh"))
      (knee_data (side ++ "_shank")) fs with
  | error e => simp only [calibrate_side, hknee]
  | ok knee_axes =>
    simp only [calibrate_side, hknee, hpr1, hpr2]

/-- C9: for identical static, knee and ankle data and identical `fs`, two
hip-data inputs whose thigh streams are long enough to avoid the
insufficient-data error produce exactly the same calibration-quaternion
mapping: the hip axis feeds only the printed diagnostic. -/
theorem perform_calibration_hip_independent (principal : Mat3 → Vec3)
    (rotMean : Mat4 → Quat) (matToQuat : Mat3 → Quat)
    (static_data hip1 hip2 knee_data ankle_data : String → List Quat) (fs : ℝ)
    (h1l : 3 ≤ (hip1 "left_thigh").length)
    (h1r : 3 ≤ (hip1 "right_thigh").length)
    (h2l : 3 ≤ (hip2 "left_thigh").length)
    (h2r : 3 ≤ (hip2 "right_thigh").length) :
    perform_calibration principal rotMean matToQuat static_data hip1 knee_data
        ankle_data fs
      = perform_calibration principal rotMean matToQuat static_data hip2
        knee_data ankle_data fs := by
  unfold perform_calibration
  rw [calibrate_side_hip_independent principal rotMean matToQuat static_data
      hip1 hip2 knee_data ankle_data fs "left" h1l h2l,
    calibrate_side_hip_independent principal rotMean matToQuat static_data
      hip1 hip2 knee_data ankle_data fs "right" h1r h2r]

theorem perform_calibration_hip_independent_witness :
    (3 ≤ ((fun _ : String => distA) "left_thigh").length
      ∧ 3 ≤ ((fun _ : String => proxA) "right_thigh").length)
    ∧ perform_calibration principal0 rotMean0 (fun _ => qOne)
        (fun _ => proxA) (fun _ => distA) (fun _ => distA) (fun _ => distA) 1
      = perform_calibration principal0 rotMean0 (fun _ => qOne)
        (fun _ => proxA) (fun _ => proxA) (fun _ => distA) (fun _ => distA) 1 :=
  ⟨⟨by simp [distA], by simp [proxA]⟩,
    perform_calibration_hip_independent principal0 rotMean0 (fun _ => qOne)
      (fun _ => proxA) (fun _ => distA) (fun _ => proxA) (fun _ => distA)
      (fun _ => distA) 1 (by simp [distA]) (by simp [distA])
      (by simp [proxA]) (by simp [proxA])⟩

/-! C10: double-cover and scale behaviour of individual samples. -/

theorem zipWith_getElem?_eq {α β γ : Type} (f : α → β → γ) :
    ∀ (l : List α) (l' : List β) (i : ℕ),
      (List.zipWith f l l')[i]?
        = Option.bind l[i]? (fun a => Option.map (f a) l'[i]?) := by
  intro l
  induction l with
  | nil => intro l' i; simp
  | cons x xs ih =>
    intro l' i
    cases l' with
    | nil => simp
    | cons y ys =>
      cases i with
      | zero => simp
      | succ j => simpa using ih ys j

/-- The rotation vector ignores the quaternion sign away from half-turns:
for `w ≠ 0` the canonicalization flips the representative back. -/
theorem rotvec_qneg {q : Quat} (h : q.w ≠ 0) : rotvec (qneg q) = rotvec q := by
  unfold rotvec
  rcases lt_or_gt_of_ne h with hlt | hgt
  · rw [if_neg (show ¬ (qneg q).w < 0 by simp only [qneg]; linarith),
      if_pos hlt]
  · rw [if_pos (show (qneg q).w < 0 by simp only [qneg]; linarith),
      if_neg (show ¬ q.w < 0 by linarith), qneg_qneg]

theorem qCoord_qneg (q : Quat) (i : Fin 4) : qCoord (qneg q) i = -qCoord q i := by
  fin_cases i <;> simp [qCoord, qneg]

theorem qOuter_qneg (q : Quat) : qOuter (qneg q) = qOuter q := by
  unfold qOuter
  apply Matrix.ext
  intro i j
  simp only [Matrix.of_apply, qCoord_qneg]
  ring

theorem lt_length_of_getElem?_some {α : Type} {l : List α} {k : ℕ} {a : α}
    (h : l[k]? = some a) : k < l.length := by
  by_contra hk
  rw [List.getElem?_eq_none (le_of_not_lt hk)] at h
  exact Option.noConfusion h

theorem relList_set_distal_smul (proximal_q distal_q : List Quat) (k : ℕ)
    (c : ℝ) (hc : 0 < c) (dk : Quat) (hdk : distal_q[k]? = some dk) :
    relList proximal_q (distal_q.set k (qsmul c dk)) = relList proximal_q distal_q := by
  have hklen : k < distal_q.length := lt_length_of_getElem?_some hdk
  apply List.ext_getElem?
  intro i
  unfold relList
  rw [zipWith_getElem?_eq, zipWith_getElem?_eq, List.getElem?_set]
  by_cases hik : k = i
  · subst hik
    rw [if_pos rfl, if_pos hklen, hdk]
    rcases hp : proximal_q[k]? with _ | pk
    · rfl
    · exact congrArg (fun t => some (qmul t (qconj (qnormalize pk))))
        (qnormalize_qsmul_pos hc dk)
  · rw [if_neg hik]

theorem relList_set_prox_smul (proximal_q distal_q : List Quat) (k : ℕ)
    (c : ℝ) (hc : 0 < c) (pk : Quat) (hpk : proximal_q[k]? = some pk) :
    relList (proximal_q.set k (qsmul c pk)) distal_q = relList proximal_q distal_q := by
  have hklen : k < proximal_q.length := lt_length_of_getElem?_some hpk
  apply List.ext_getElem?
  intro i
  unfold relList
  rw [zipWith_getElem?_eq, zipWith_getElem?_eq, List.getElem?_set]
  by_cases hik : k = i
  · subst hik
    rw [if_pos rfl, if_pos hklen, hpk]
    rcases hd : distal_q[k]? with _ | dk
    · rfl
    · exact congrArg (fun t => some (qmul (qnormalize dk) (qconj t)))
        (qnormalize_qsmul_pos hc pk)
  · rw [if_neg hik]

theorem relList_set_distal_neg (proximal_q distal_q : List Quat) (k : ℕ)
    (dk : Quat) (hdk : distal_q[k]? = some dk) (i : ℕ) :
    (relList proximal_q (distal_q.set k (qneg dk)))[i]?
      = if i = k then ((relList proximal_q distal_q)[i]?).map qneg
        else (relList proximal_q distal_q)[i]? := by
  have hklen : k < distal_q.length := lt_length_of_getElem?_some hdk
  unfold relList
  rw [zipWith_getElem?_eq, zipWith_getElem?_eq, List.getElem?_set]
  by_cases hik : i = k
  · subst hik
    rw [if_pos rfl, if_pos rfl, if_pos hklen, hdk]
    rcases hp : proximal_q[i]? with _ | pk
    · rfl
    · exact congrArg some
        (by simp only [qnormalize_qneg, qmul_qneg_left])
  · rw [if_neg (fun h => hik h.symm), if_neg hik]

theorem relList_set_prox_neg (proximal_q distal_q : List Quat) (k : ℕ)
    (pk : Quat) (hpk : proximal_q[k]? = some pk) (i : ℕ) :
    (relList (proximal_q.set k (qneg pk)) distal_q)[i]?
      = if i = k then ((relList proximal_q distal_q)[i]?).map qneg
        else (relList proximal_q distal_q)[i]? := by
  have hklen : k < proximal_q.length := lt_length_of_getElem?_some hpk
  unfold relList
  rw [zipWith_getElem?_eq, zipWith_getElem?_eq, List.getElem?_set]
  by_cases hik : i = k
  · subst hik
    rw [if_pos rfl, if_pos rfl, if_pos hklen, hpk]
    rcases hd : distal_q[i]? with _ | dk
    · rfl
    · exact congrArg some
        (by simp only [qnormalize_qneg, qconj_qneg, qmul_qneg_right])
  · rw [if_neg (fun h => hik h.symm), if_neg hik]

theorem find_eq_of_relList_eq (principal : Mat3 → Vec3) (rotMean : Mat4 → Quat)
    (p1 d1 p2 d2 : List Quat) (fs : ℝ)
    (h : relList p1 d1 = relList p2 d2) :
    find_rotation_axis principal rotMean p1 d1 fs
      = find_rotation_axis principal rotMean p2 d2 fs := by
  simp only [find_rotation_axis, angVelList]
  rw [h]

/-- If one relative rotation is flipped in sign and no relative increment of
the original run is a half-turn (`w`-component zero), the whole
`find_rotation_axis` output is unchanged: the two affected increments flip
sign, the canonical rotation vector ignores the sign, and the rotation-mean
accumulator is built from sign-invariant outer products. -/
theorem find_eq_of_relList_negAt (principal : Mat3 → Vec3) (rotMean : Mat4 → Quat)
    (p1 d1 p2 d2 : List Quat) (fs : ℝ) (k : ℕ)
    (hrel : ∀ i : ℕ, (relList p1 d1)[i]?
      = if i = k then ((relList p2 d2)[i]?).map qneg else (relList p2 d2)[i]?)
    (hw : ∀ (j : ℕ) (dj : Quat),
      (deltaList (relList p2 d2))[j]? = some dj → dj.w ≠ 0) :
    find_rotation_axis principal rotMean p1 d1 fs
      = find_rotation_axis principal rotMean p2 d2 fs := by
  have hang : angVelList p1 d1 fs = angVelList p2 d2 fs := by
    apply List.ext_getElem?
    intro j
    unfold angVelList deltaList
    rw [List.getElem?_map, List.getElem?_map, zipWith_getElem?_eq,
      zipWith_getElem?_eq, List.getElem?_tail, List.getElem?_tail,
      hrel j, hrel (j + 1)]
    by_cases hjk : j = k
    · subst hjk
      rw [if_pos rfl, if_neg (by omega)]
      rcases h1 : (relList p2 d2)[j]? with _ | a
      · rfl
      · rcases h2 : (relList p2 d2)[j + 1]? with _ | b
        · rfl
        · have hdj : (deltaList (relList p2 d2))[j]? = some (qmul (qconj a) b) :=
            zipWith_getElem?_some _ _ _ _ _ _ h1
              (by rw [List.getElem?_tail]; exact h2)
          have hwj := hw j _ hdj
          exact congrArg some (congrArg (vsmul fs)
            (by simp only [qconj_qneg, qmul_qneg_left]; exact rotvec_qneg hwj))
    · by_cases hjk1 : j + 1 = k
      · rw [if_neg hjk, if_pos hjk1]
        rcases h1 : (relList p2 d2)[j]? with _ | a
        · rfl
        · rcases h2 : (relList p2 d2)[j + 1]? with _ | b
          · rfl
          · have hdj : (deltaList (relList p2 d2))[j]? = some (qmul (qconj a) b) :=
              zipWith_getElem?_some _ _ _ _ _ _ h1
                (by rw [List.getElem?_tail]; exact h2)
            have hwj := hw j _ hdj
            exact congrArg some (congrArg (vsmul fs)
              (by simp only [qmul_qneg_right]; exact rotvec_qneg hwj))
      · rw [if_neg hjk, if_neg hjk1]
  have houter : qOuterSum (relList p1 d1) = qOuterSum (relList p2 d2) := by
    unfold qOuterSum
    have hmap : (relList p1 d1).map qOuter = (relList p2 d2).map qOuter := by
      apply List.ext_getElem?
      intro i
      rw [List.getElem?_map, List.getElem?_map, hrel i]
      by_cases hik : i = k
      · subst hik
        rw [if_pos rfl]
        rcases h1 : (relList p2 d2)[i]? with _ | a
        · rfl
        · exact congrArg some (qOuter_qneg a)
      · rw [if_neg hik]
    rw [hmap]
  simp only [find_rotation_axis]
  rw [hang, houter]

/-- C10 amended: the interface of `find_rotation_axis` is ALWAYS invariant
to rescaling any individual sample by a positive scalar (in either stream,
with no further condition), and invariant to flipping the sign of any
individual sample provided no consecutive relative-rotation increment of
the trial is an exact half-turn (at a half-turn, `as_rotvec` keeps the sign
of the stored vector part, the flip changes one angular-velocity sample,
and the axes can change — see the counterexample). -/
theorem double_cover_scale_invariance (principal : Mat3 → Vec3)
    (rotMean : Mat4 → Quat) (proximal_q distal_q : List Quat) (fs : ℝ)
    (k : ℕ) (c : ℝ) (hc : 0 < c) (dk pk : Quat)
    (hdk : distal_q[k]? = some dk) (hpk : proximal_q[k]? = some pk) :
    find_rotation_axis principal rotMean proximal_q
        (distal_q.set k (qsmul c dk)) fs
      = find_rotation_axis principal rotMean proximal_q distal_q fs
    ∧ find_rotation_axis principal rotMean (proximal_q.set k (qsmul c pk))
        distal_q fs
      = find_rotation_axis principal rotMean proximal_q distal_q fs
    ∧ ((∀ (j : ℕ) (dj : Quat),
          (deltaList (relList proximal_q distal_q))[j]? = some dj → dj.w ≠ 0) →
        find_rotation_axis principal rotMean proximal_q
            (distal_q.set k (qneg dk)) fs
          = find_rotation_axis principal rotMean proximal_q distal_q fs)
    ∧ ((∀ (j : ℕ) (dj : Quat),
          (deltaList (relList proximal_q distal_q))[j]? = some dj → dj.w ≠ 0) →
        find_rotation_axis principal rotMean (proximal_q.set k (qneg pk))
            distal_q fs
          = find_rotation_axis principal rotMean proximal_q distal_q fs) := by
  refine ⟨?_, ?_, ?_, ?_⟩
  · exact find_eq_of_relList_eq _ _ _ _ _ _ _
      (relList_set_distal_smul proximal_q distal_q k c hc dk hdk)
  · exact find_eq_of_relList_eq _ _ _ _ _ _ _
      (relList_set_prox_smul proximal_q distal_q k c hc pk hpk)
  · intro hw
    exact find_eq_of_relList_negAt _ _ _ _ _ _ _ k
      (relList_set_distal_neg proximal_q distal_q k dk hdk) hw
  · intro hw
    exact find_eq_of_relList_negAt _ _ _ _ _ _ _ k
      (relList_set_prox_neg proximal_q distal_q k pk hpk) hw

theorem double_cover_scale_invariance_witness :
    ((0:ℝ) < 2 ∧ distA[0]? = some qOne ∧ proxA[0]? = some qOne
      ∧ (∀ (j : ℕ) (dj : Quat),
          (deltaList (relList proxA distA))[j]? = some dj → dj.w ≠ 0))
    ∧ (find_rotation_axis principal0 rotMean0 proxA
          (distA.set 0 (qsmul 2 qOne)) 1
        = find_rotation_axis principal0 rotMean0 proxA distA 1
      ∧ find_rotation_axis principal0 rotMean0 (proxA.set 0 (qsmul 2 qOne))
          distA 1
        = find_rotation_axis principal0 rotMean0 proxA distA 1
      ∧ find_rotation_axis principal0 rotMean0 proxA
          (distA.set 0 (qneg qOne)) 1
        = find_rotation_axis principal0 rotMean0 proxA distA 1
      ∧ find_rotation_axis principal0 rotMean0 (proxA.set 0 (qneg qOne))
          distA 1
        = find_rotation_axis principal0 rotMean0 proxA distA 1) := by
  have hwA : ∀ (j : ℕ) (dj : Quat),
      (deltaList (relList proxA distA))[j]? = some dj → dj.w ≠ 0 := by
    intro j dj h
    rw [relList_threeA, deltaList_threeA] at h
    rcases j with _ | _ | j
    · simp only [List.getElem?_cons_zero, Option.some.injEq] at h
      rw [← h]
      norm_num
    · simp only [List.getElem?_cons_succ, List.getElem?_cons_zero,
        Option.some.injEq] at h
      rw [← h]
      norm_num
    · simp at h
  obtain ⟨h1, h2, h3, h4⟩ :=
    double_cover_scale_invariance principal0 rotMean0 proxA distA 1 0 2
      (by norm_num) qOne qOne rfl rfl
  exact ⟨⟨by norm_num, rfl, rfl, hwA⟩, h1, h2, h3 hwA, h4 hwA⟩

/-! C10 counterexample: streams whose relative increments are exact
half-turns, where the sign of an individual sample leaks through
`as_rotvec`. -/

/-- Proximal stream of the sign-flip counterexample. -/
def prox10 : List Quat := [qOne, qOne, qOne]

/-- Distal stream of the sign-flip counterexample: identity, half-turn about
x, half-turn about z; consecutive relative increments are half-turns. -/
def dist10 : List Quat := [qOne, ⟨0, 1, 0, 0⟩, ⟨0, 0, 0, 1⟩]

/-- Rank-one matrix `c · u uᵀ`, the shape of the covariance of two
angular-velocity observations. -/
def outerMat (c : ℝ) (u : Vec3) : Mat3 :=
  ⟨⟨c * u.x * u.x, c * u.x * u.y, c * u.x * u.z⟩,
   ⟨c * u.y * u.x, c * u.y * u.y, c * u.y * u.z⟩,
   ⟨c * u.z * u.x, c * u.z * u.y, c * u.z * u.z⟩⟩

/-- A model of `np.linalg.eigh(...)[1][:, -1]` adequate for the two rank-one
covariance matrices of the sign-flip counterexample. -/
def principalC10 : Mat3 → Vec3 := fun M =>
  if M.r0.y < 0 then vsmul (Real.sqrt 2)⁻¹ ⟨1, -1, 0⟩
  else vsmul (Real.sqrt 2)⁻¹ ⟨1, 1, 0⟩

theorem dot_vsmul_right (c : ℝ) (u v : Vec3) : dot u (vsmul c v) = c * dot u v := by
  simp only [dot, vsmul]
  ring

theorem matVec_outerMat (c : ℝ) (u v : Vec3) :
    matVec (outerMat c u) v = vsmul (c * dot u v) u := by
  ext <;> simp only [matVec, outerMat, dot, vsmul] <;> ring

/-- Any unit multiple of `u` is a top eigenvector of the positive
semidefinite rank-one matrix `c · u uᵀ`. -/
theorem eigOk_outerMat (c : ℝ) (hc : 0 ≤ c) (u : Vec3) (t : ℝ)
    (hunit : vnormSq (vsmul t u) = 1) :
    EigOk (outerMat c u) (vsmul t u) := by
  refine ⟨hunit, c * dot u u, ?_, ?_⟩
  · rw [matVec_outerMat, dot_vsmul_right]
    ext <;> simp only [vsmul] <;> ring
  · intro mu v hv hMv
    rw [matVec_outerMat] at hMv
    by_contra hgt
    push_neg at hgt
    have hduu : 0 ≤ dot u u := vnormSq_nonneg u
    have hcd : 0 ≤ c * dot u u := mul_nonneg hc hduu
    have hmu0 : mu ≠ 0 := by
      intro h
      rw [h] at hgt
      linarith
    have hdot := congrArg (dot u) hMv
    rw [dot_vsmul_right, dot_vsmul_right] at hdot
    have hduv : dot u v ≠ 0 := by
      intro h0
      apply hv
      rw [h0, mul_zero] at hMv
      have hx := congrArg Vec3.x hMv
      have hy := congrArg Vec3.y hMv
      have hz := congrArg Vec3.z hMv
      simp only [vsmul, zero_mul] at hx hy hz
      ext
      · exact (mul_eq_zero.mp (by linarith)).resolve_left hmu0
      · exact (mul_eq_zero.mp (by linarith)).resolve_left hmu0
      · exact (mul_eq_zero.mp (by linarith)).resolve_left hmu0
    have hkey : c * dot u u = mu := by
      have h3 : dot u v * (c * dot u u) = dot u v * mu := by
        linear_combination hdot
      exact mul_left_cancel₀ hduv h3
    linarith

theorem atan2_of_zero_pos (y : ℝ) (hy : 0 < y) : atan2 y 0 = Real.pi / 2 := by
  unfold atan2
  rw [if_neg (by norm_num), if_neg (by norm_num), if_pos hy]

theorem relList_three10 :
    relList prox10 dist10 = [qOne, ⟨0, 1, 0, 0⟩, ⟨0, 0, 0, 1⟩] := by
  have h0 : qnormalize qOne = qOne := qnormalize_of_unit (by norm_num [qnormSq, qOne])
  have h1 : qnormalize (⟨0, 1, 0, 0⟩ : Quat) = ⟨0, 1, 0, 0⟩ :=
    qnormalize_of_unit (by norm_num [qnormSq])
  have h2 : qnormalize (⟨0, 0, 0, 1⟩ : Quat) = ⟨0, 0, 0, 1⟩ :=
    qnormalize_of_unit (by norm_num [qnormSq])
  simp only [relList, prox10, dist10, List.zipWith_cons_cons, List.zipWith_nil_left,
    h0, h1, h2]
  norm_num [qmul, qconj, qOne]

theorem deltaList_three10 :
    deltaList [qOne, ⟨0, 1, 0, 0⟩, ⟨0, 0, 0, 1⟩]
      = [⟨0, 1, 0, 0⟩, ⟨0, 0, 1, 0⟩] := by
  simp only [deltaList, List.tail_cons, List.zipWith_cons_cons, List.zipWith_nil_left]
  norm_num [qmul, qconj, qOne]

theorem angVelList_three10 :
    angVelList prox10 dist10 1 = [⟨Real.pi, 0, 0⟩, ⟨0, Real.pi, 0⟩] := by
  unfold angVelList
  rw [relList_three10, deltaList_three10]
  simp only [List.map_cons, List.map_nil]
  rw [rotvec_xpos 0 1 (by norm_num) (by norm_num),
    rotvec_ypos 0 1 (by norm_num) (by norm_num),
    atan2_of_zero_pos 1 one_pos]
  norm_num [vsmul]
  all_goals ring

theorem dist10_flip : dist10.set 0 (qneg qOne)
    = [⟨-1, 0, 0, 0⟩, ⟨0, 1, 0, 0⟩, ⟨0, 0, 0, 1⟩] := by
  norm_num [dist10, qneg, qOne, List.set_cons_zero]

theorem relList_three10f :
    relList prox10 [⟨-1, 0, 0, 0⟩, ⟨0, 1, 0, 0⟩, ⟨0, 0, 0, 1⟩]
      = [⟨-1, 0, 0, 0⟩, ⟨0, 1, 0, 0⟩, ⟨0, 0, 0, 1⟩] := by
  have h0 : qnormalize qOne = qOne := qnormalize_of_unit (by norm_num [qnormSq, qOne])
  have hm : qnormalize (⟨-1, 0, 0, 0⟩ : Quat) = ⟨-1, 0, 0, 0⟩ :=
    qnormalize_of_unit (by norm_num [qnormSq])
  have h1 : qnormalize (⟨0, 1, 0, 0⟩ : Quat) = ⟨0, 1, 0, 0⟩ :=
    qnormalize_of_unit (by norm_num [qnormSq])
  have h2 : qnormalize (⟨0, 0, 0, 1⟩ : Quat) = ⟨0, 0, 0, 1⟩ :=
    qnormalize_of_unit (by norm_num [qnormSq])
  simp only [relList, prox10, List.zipWith_cons_cons, List.zipWith_nil_left,
    h0, hm, h1, h2]
  norm_num [qmul, qconj, qOne]

theorem deltaList_three10f :
    deltaList [⟨-1, 0, 0, 0⟩, ⟨0, 1, 0, 0⟩, ⟨0, 0, 0, 1⟩]
      = [⟨0, -1, 0, 0⟩, ⟨0, 0, 1, 0⟩] := by
  simp only [deltaList, List.tail_cons, List.zipWith_cons_cons, List.zipWith_nil_left]
  norm_num [qmul, qconj, qOne]

theorem rotvec_half_turn_neg_x : rotvec ⟨0, -1, 0, 0⟩ = ⟨-Real.pi, 0, 0⟩ := by
  unfold rotvec
  rw [if_neg (by norm_num)]
  unfold rotvecCore
  have hn : vnorm (qvec ⟨0, -1, 0, 0⟩) = 1 := by
    show Real.sqrt ((-1) * (-1) + 0 * 0 + 0 * 0) = 1
    norm_num
  rw [hn, if_neg one_ne_zero]
  ext
  · show 2 * atan2 1 0 / 1 * (-1) = -Real.pi
    rw [atan2_of_zero_pos 1 one_pos]
    ring
  · show 2 * atan2 1 0 / 1 * 0 = 0
    ring
  · show 2 * atan2 1 0 / 1 * 0 = 0
    ring

theorem angVelList_three10f :
    angVelList prox10 (dist10.set 0 (qneg qOne)) 1
      = [⟨-Real.pi, 0, 0⟩, ⟨0, Real.pi, 0⟩] := by
  unfold angVelList
  rw [dist10_flip, relList_three10f, deltaList_three10f]
  simp only [List.map_cons, List.map_nil]
  rw [rotvec_half_turn_neg_x,
    rotvec_ypos 0 1 (by norm_num) (by norm_num),
    atan2_of_zero_pos 1 one_pos]
  norm_num [vsmul]
  all_goals ring

theorem cov10_raw : covMatrix [⟨Real.pi, 0, 0⟩, ⟨0, Real.pi, 0⟩]
    = outerMat (Real.pi ^ 2 / 2) ⟨1, -1, 0⟩ := by
  ext <;>
    simp only [covMatrix, covEntry, vmean, vsum, List.foldr_cons, List.foldr_nil,
      vadd, vzero, vsub, vsmul, List.map_cons, List.map_nil, List.sum_cons,
      List.sum_nil, List.length_cons, List.length_nil, outerMat] <;>
    push_cast <;> field_simp <;> ring

theorem cov10_flip : covMatrix [⟨-Real.pi, 0, 0⟩, ⟨0, Real.pi, 0⟩]
    = outerMat (Real.pi ^ 2 / 2) ⟨1, 1, 0⟩ := by
  ext <;>
    simp only [covMatrix, covEntry, vmean, vsum, List.foldr_cons, List.foldr_nil,
      vadd, vzero, vsub, vsmul, List.map_cons, List.map_nil, List.sum_cons,
      List.sum_nil, List.length_cons, List.length_nil, outerMat] <;>
    push_cast <;> field_simp <;> ring

theorem sqrt_two_inv_sq : ((Real.sqrt 2)⁻¹ : ℝ) ^ 2 = 1 / 2 := by
  rw [inv_pow, Real.sq_sqrt (by norm_num : (0:ℝ) ≤ 2)]
  norm_num

theorem unit_diag_neg : vnormSq (vsmul (Real.sqrt 2)⁻¹ ⟨1, -1, 0⟩) = 1 := by
  rw [vnormSq_vsmul, sqrt_two_inv_sq]
  norm_num [vnormSq, dot]

theorem unit_diag_pos : vnormSq (vsmul (Real.sqrt 2)⁻¹ ⟨1, 1, 0⟩) = 1 := by
  rw [vnormSq_vsmul, sqrt_two_inv_sq]
  norm_num [vnormSq, dot]

theorem pi_sq_half_pos : (0:ℝ) < Real.pi ^ 2 / 2 := by positivity

theorem eig_run10 : EigOk (covMatrix (angVelList prox10 dist10 1))
    (principalC10 (covMatrix (angVelList prox10 dist10 1))) := by
  rw [angVelList_three10, cov10_raw]
  simp only [principalC10, outerMat]
  rw [if_pos (by nlinarith [pi_sq_half_pos])]
  exact eigOk_outerMat _ pi_sq_half_pos.le _ _ unit_diag_neg

theorem eig_run10f : EigOk
    (covMatrix (angVelList prox10 (dist10.set 0 (qneg qOne)) 1))
    (principalC10 (covMatrix (angVelList prox10 (dist10.set 0 (qneg qOne)) 1))) := by
  rw [angVelList_three10f, cov10_flip]
  simp only [principalC10, outerMat]
  rw [if_neg (by nlinarith [pi_sq_half_pos])]
  exact eigOk_outerMat _ pi_sq_half_pos.le _ _ unit_diag_pos

theorem find_run10 : find_rotation_axis principalC10 rotMean0 prox10 dist10 1
    = .ok (vsmul (Real.sqrt 2)⁻¹ ⟨1, -1, 0⟩, vsmul (Real.sqrt 2)⁻¹ ⟨1, -1, 0⟩) := by
  have hcond : ¬ (angVelList prox10 dist10 1).length < 2 := by
    rw [angVelList_three10]
    norm_num
  rw [find_rotation_axis_ok _ _ _ _ _ hcond, angVelList_three10, cov10_raw]
  simp only [principalC10, rotMean0, outerMat]
  rw [if_pos (by nlinarith [pi_sq_half_pos])]
  rw [qapply_one, vnormalize_of_unit unit_diag_neg]

theorem find_run10f : find_rotation_axis principalC10 rotMean0 prox10
    (dist10.set 0 (qneg qOne)) 1
    = .ok (vsmul (Real.sqrt 2)⁻¹ ⟨1, 1, 0⟩, vsmul (Real.sqrt 2)⁻¹ ⟨1, 1, 0⟩) := by
  have hcond : ¬ (angVelList prox10 (dist10.set 0 (qneg qOne)) 1).length < 2 := by
    rw [angVelList_three10f]
    norm_num
  rw [find_rotation_axis_ok _ _ _ _ _ hcond, angVelList_three10f, cov10_flip]
  simp only [principalC10, rotMean0, outerMat]
  rw [if_neg (by nlinarith [pi_sq_half_pos])]
  rw [qapply_one, vnormalize_of_unit unit_diag_pos]

/-- C10 counterexample: at an exact half-turn relative increment the claimed
sign invariance fails.  With a valid model of the eigen-decomposition
(`EigOk` holds at both covariance matrices; the two top eigenspaces are
distinct lines, so no sign convention can repair the equality) and a unit
rotation mean, flipping the single sample `dist10[0] = (1,0,0,0)` to its
negation changes both returned axes. -/
theorem sample_sign_flip_changes_axes :
    (∀ M, qnormSq (rotMean0 M) = 1)
    ∧ dist10[0]? = some qOne
    ∧ EigOk (covMatrix (angVelList prox10 dist10 1))
        (principalC10 (covMatrix (angVelList prox10 dist10 1)))
    ∧ EigOk (covMatrix (angVelList prox10 (dist10.set 0 (qneg qOne)) 1))
        (principalC10 (covMatrix (angVelList prox10 (dist10.set 0 (qneg qOne)) 1)))
    ∧ find_rotation_axis principalC10 rotMean0 prox10
        (dist10.set 0 (qneg qOne)) 1
      ≠ find_rotation_axis principalC10 rotMean0 prox10 dist10 1 := by
  refine ⟨fun M => by norm_num [rotMean0, qnormSq, qOne], rfl,
    eig_run10, eig_run10f, ?_⟩
  rw [find_run10, find_run10f]
  intro h
  have hs : ((Real.sqrt 2)⁻¹ : ℝ) ≠ 0 :=
    inv_ne_zero (ne_of_gt (Real.sqrt_pos.mpr (by norm_num)))
  simp only [Except.ok.injEq, Prod.mk.injEq, vsmul, Vec3.mk.injEq] at h
  rcases h with ⟨⟨_, hy, _⟩, _⟩
  have := mul_left_cancel₀ hs hy
  norm_num at this

/-! C7: the Euler convention of the calibration application.  Lowercase
`'xyz'` in `scipy.as_euler` is the extrinsic (fixed-axis) sequence; the
specification asserts an intrinsic X-Y-Z decomposition. -/

theorem qconj_qOne : qconj qOne = qOne := by
  ext <;> norm_num [qconj, qOne]

theorem apply_calibration_Cq_one : apply_calibration Cq qOne = Cq := by
  unfold apply_calibration
  rw [qnormalize_of_unit (show qnormSq qOne = 1 by norm_num [qnormSq, qOne]),
    qnormalize_of_unit (show qnormSq Cq = 1 by norm_num [qnormSq, Cq]),
    qconj_qOne, qmul_one,
    qnormalize_of_unit (show qnormSq Cq = 1 by norm_num [qnormSq, Cq])]

theorem quatToMat_Cq : quatToMat Cq = ⟨⟨0, 0, 1⟩, ⟨1, 0, 0⟩, ⟨0, 1, 0⟩⟩ := by
  ext <;> norm_num [quatToMat, Cq]

theorem asEuler_M0 :
    asEulerXYZ ⟨⟨0, 0, 1⟩, ⟨1, 0, 0⟩, ⟨0, 1, 0⟩⟩
      = (Real.pi / 2, 0, Real.pi / 2) := by
  show (atan2 1 0, Real.arcsin (-0), atan2 1 0) = (Real.pi / 2, 0, Real.pi / 2)
  rw [atan2_of_zero_pos 1 one_pos]
  norm_num

theorem calibration_euler_Cq :
    calibration_euler Cq qOne = (Real.pi / 2, 0, Real.pi / 2) := by
  unfold calibration_euler
  rw [apply_calibration_Cq_one, quatToMat_Cq, asEuler_M0]

theorem intrinsic_M0 : intrinsicXYZ (Real.pi / 2, 0, Real.pi / 2)
    = ⟨⟨0, -1, 0⟩, ⟨0, 0, -1⟩, ⟨1, 0, 0⟩⟩ := by
  unfold intrinsicXYZ
  ext <;>
    simp [matMul, Rx, Ry, Rz, col0, col1, col2, dot,
      Real.cos_pi_div_two, Real.sin_pi_div_two]

theorem extrinsic_M0 : extrinsicXYZ (Real.pi / 2, 0, Real.pi / 2)
    = ⟨⟨0, 0, 1⟩, ⟨1, 0, 0⟩, ⟨0, 1, 0⟩⟩ := by
  unfold extrinsicXYZ
  ext <;>
    simp [matMul, Rx, Ry, Rz, col0, col1, col2, dot,
      Real.cos_pi_div_two, Real.sin_pi_div_two]

/-- C7 counterexample: for the anatomical orientation given by the unit
quaternion `(1/2, 1/2, 1/2, 1/2)` (a 120° turn about `(1,1,1)`), the triple
computed by the calibration-application step (`as_euler('xyz')`) is
`(π/2, 0, π/2)`; composing it as an INTRINSIC X-Y-Z sequence does not
reproduce the anatomical rotation, while the extrinsic x-y-z composition
does. -/
theorem euler_convention_counterexample :
    qnormSq Cq = 1 ∧ qnormSq qOne = 1
    ∧ calibration_euler Cq qOne = (Real.pi / 2, 0, Real.pi / 2)
    ∧ intrinsicXYZ (calibration_euler Cq qOne)
        ≠ quatToMat (apply_calibration Cq qOne)
    ∧ extrinsicXYZ (calibration_euler Cq qOne)
        = quatToMat (apply_calibration Cq qOne) := by
  refine ⟨by norm_num [qnormSq, Cq], by norm_num [qnormSq, qOne],
    calibration_euler_Cq, ?_, ?_⟩
  · rw [calibration_euler_Cq, intrinsic_M0, apply_calibration_Cq_one, quatToMat_Cq]
    intro h
    have h2 := congrArg (fun M => M.r0.y) h
    norm_num at h2
  · rw [calibration_euler_Cq, extrinsic_M0, apply_calibration_Cq_one, quatToMat_Cq]

set_option maxHeartbeats 2000000 in
/-- Reconstruction of a rotation matrix from its `as_euler('xyz')` triple by
the EXTRINSIC x-y-z composition, away from the gimbal branch
(`R22 > 0`, `R00 > 0`).  The hypotheses are the orthonormality relations a
rotation matrix satisfies. -/
theorem euler_reconstruct_entries
    (R00 R01 R02 R10 R11 R12 R20 R21 R22 : ℝ)
    (hrow2 : R20 ^ 2 + R21 ^ 2 + R22 ^ 2 = 1)
    (hcol0 : R00 ^ 2 + R10 ^ 2 + R20 ^ 2 = 1)
    (ho02 : R00 * R20 + R01 * R21 + R02 * R22 = 0)
    (ho12 : R10 * R20 + R11 * R21 + R12 * R22 = 0)
    (hc00 : R00 = R11 * R22 - R12 * R21)
    (hc10 : R10 = R21 * R02 - R22 * R01)
    (h22 : 0 < R22) (h00 : 0 < R00) :
    extrinsicXYZ (asEulerXYZ ⟨⟨R00, R01, R02⟩, ⟨R10, R11, R12⟩, ⟨R20, R21, R22⟩⟩)
      = ⟨⟨R00, R01, R02⟩, ⟨R10, R11, R12⟩, ⟨R20, R21, R22⟩⟩ := by
  have hab : asEulerXYZ ⟨⟨R00, R01, R02⟩, ⟨R10, R11, R12⟩, ⟨R20, R21, R22⟩⟩
      = (Real.arctan (R21 / R22), Real.arcsin (-R20), Real.arctan (R10 / R00)) := by
    show (atan2 R21 R22, Real.arcsin (-R20), atan2 R10 R00) = _
    rw [atan2_of_pos R21 R22 h22, atan2_of_pos R10 R00 h00]
  rw [hab]
  have h22n : R22 ≠ 0 := ne_of_gt h22
  have h00n : R00 ≠ 0 := ne_of_gt h00
  have hsumpos : 0 < R21 ^ 2 + R22 ^ 2 := by nlinarith
  set c := Real.sqrt (R21 ^ 2 + R22 ^ 2) with hcdef
  have hcpos : 0 < c := Real.sqrt_pos.mpr hsumpos
  have hcn : c ≠ 0 := ne_of_gt hcpos
  have hc2 : c ^ 2 = R21 ^ 2 + R22 ^ 2 := Real.sq_sqrt hsumpos.le
  have hsq22 : Real.sqrt (R22 ^ 2) = R22 := Real.sqrt_sq h22.le
  have hsq00 : Real.sqrt (R00 ^ 2) = R00 := Real.sqrt_sq h00.le
  have harg1 : 1 + (R21 / R22) ^ 2 = (R21 ^ 2 + R22 ^ 2) / R22 ^ 2 := by
    field_simp
    ring
  have hsqrt1 : Real.sqrt (1 + (R21 / R22) ^ 2) = c / R22 := by
    rw [harg1, Real.sqrt_div (by positivity) (R22 ^ 2), hsq22]
  have hcosa : Real.cos (Real.arctan (R21 / R22)) = R22 / c := by
    rw [Real.cos_arctan, hsqrt1, one_div_div]
  have hsina : Real.sin (Real.arctan (R21 / R22)) = R21 / c := by
    rw [Real.sin_arctan, hsqrt1]
    field_simp
  have hcol0sum : R00 ^ 2 + R10 ^ 2 = R21 ^ 2 + R22 ^ 2 := by linarith
  have harg2 : 1 + (R10 / R00) ^ 2 = (R21 ^ 2 + R22 ^ 2) / R00 ^ 2 := by
    rw [← hcol0sum]
    field_simp
  have hsqrt2 : Real.sqrt (1 + (R10 / R00) ^ 2) = c / R00 := by
    rw [harg2, Real.sqrt_div (by positivity) (R00 ^ 2), hsq00]
  have hcosg : Real.cos (Real.arctan (R10 / R00)) = R00 / c := by
    rw [Real.cos_arctan, hsqrt2, one_div_div]
  have hsing : Real.sin (Real.arctan (R10 / R00)) = R10 / c := by
    rw [Real.sin_arctan, hsqrt2]
    field_simp
  have hR20sq : R20 ^ 2 ≤ 1 := by nlinarith [sq_nonneg R21, sq_nonneg R22]
  have hsinb : Real.sin (Real.arcsin (-R20)) = -R20 :=
    Real.sin_arcsin (by nlinarith [sq_nonneg (R20 - 1)])
      (by nlinarith [sq_nonneg (R20 + 1)])
  have hcosb : Real.cos (Real.arcsin (-R20)) = c := by
    rw [Real.cos_arcsin]
    have h1 : 1 - (-R20) ^ 2 = R21 ^ 2 + R22 ^ 2 := by
      linear_combination (-1 : ℝ) * hrow2
    rw [h1]
  unfold extrinsicXYZ
  dsimp only
  simp only [matMul, Rx, Ry, Rz, col0, col1, col2, dot]
  rw [hcosa, hsina, hcosb, hsinb, hcosg, hsing]
  ext
  · field_simp
  · field_simp
    linear_combination (-R01 * c ^ 2) * hc2 + (-R21 * c ^ 2) * ho02 + (-R22 * c ^ 2) * hc10
  · field_simp
    linear_combination (-R02 * c ^ 2) * hc2 + (-R22 * c ^ 2) * ho02 + (R21 * c ^ 2) * hc10
  · field_simp
  · field_simp
    linear_combination (-R11 * c ^ 2) * hc2 + (-R21 * c ^ 2) * ho12 + (R22 * c ^ 2) * hc00
  · field_simp
    linear_combination (-R12 * c ^ 2) * hc2 + (-R22 * c ^ 2) * ho12 + (-R21 * c ^ 2) * hc00
  · ring
  · field_simp
  · field_simp

theorem qnormSq_apply_calibration (raw_q q_cal : Quat)
    (hraw : qnormSq raw_q = 1) (hcal : qnormSq q_cal = 1) :
    qnormSq (apply_calibration raw_q q_cal) = 1 := by
  unfold apply_calibration
  rw [qnormalize_of_unit hraw, qnormalize_of_unit hcal]
  have h2 : qnormSq (qmul raw_q (qconj q_cal)) = 1 := by
    rw [qnormSq_qmul, hraw, qnormSq_qconj, hcal]
    ring
  rw [qnormalize_of_unit h2]
  exact h2

/-- The extrinsic reconstruction applied to the rotation matrix of a unit
quaternion, away from the gimbal branch. -/
theorem euler_reconstruct (q : Quat) (hq : qnormSq q = 1)
    (h22 : 0 < (quatToMat q).r2.z) (h00 : 0 < (quatToMat q).r0.x) :
    extrinsicXYZ (asEulerXYZ (quatToMat q)) = quatToMat q := by
  have hq2 : q.w ^ 2 + q.x ^ 2 + q.y ^ 2 + q.z ^ 2 = 1 := hq
  have hrow2 : (quatToMat q).r2.x ^ 2 + (quatToMat q).r2.y ^ 2
      + (quatToMat q).r2.z ^ 2 = 1 := by
    show (2 * (q.x * q.z - q.w * q.y)) ^ 2 + (2 * (q.y * q.z + q.w * q.x)) ^ 2
        + (1 - 2 * (q.x ^ 2 + q.y ^ 2)) ^ 2 = 1
    linear_combination (4 * (q.x ^ 2 + q.y ^ 2)) * hq2
  have hcol0 : (quatToMat q).r0.x ^ 2 + (quatToMat q).r1.x ^ 2
      + (quatToMat q).r2.x ^ 2 = 1 := by
    show (1 - 2 * (q.y ^ 2 + q.z ^ 2)) ^ 2 + (2 * (q.x * q.y + q.w * q.z)) ^ 2
        + (2 * (q.x * q.z - q.w * q.y)) ^ 2 = 1
    linear_combination (4 * (q.y ^ 2 + q.z ^ 2)) * hq2
  have ho02 : (quatToMat q).r0.x * (quatToMat q).r2.x
      + (quatToMat q).r0.y * (quatToMat q).r2.y
      + (quatToMat q).r0.z * (quatToMat q).r2.z = 0 := by
    show (1 - 2 * (q.y ^ 2 + q.z ^ 2)) * (2 * (q.x * q.z - q.w * q.y))
        + (2 * (q.x * q.y - q.w * q.z)) * (2 * (q.y * q.z + q.w * q.x))
        + (2 * (q.x * q.z + q.w * q.y)) * (1 - 2 * (q.x ^ 2 + q.y ^ 2)) = 0
    linear_combination (-4 * q.x * q.z) * hq2
  have ho12 : (quatToMat q).r1.x * (quatToMat q).r2.x
      + (quatToMat q).r1.y * (quatToMat q).r2.y
      + (quatToMat q).r1.z * (quatToMat q).r2.z = 0 := by
    show (2 * (q.x * q.y + q.w * q.z)) * (2 * (q.x * q.z - q.w * q.y))
        + (1 - 2 * (q.x ^ 2 + q.z ^ 2)) * (2 * (q.y * q.z + q.w * q.x))
        + (2 * (q.y * q.z - q.w * q.x)) * (1 - 2 * (q.x ^ 2 + q.y ^ 2)) = 0
    linear_combination (-4 * q.y * q.z) * hq2
  have hc00 : (quatToMat q).r0.x = (quatToMat q).r1.y * (quatToMat q).r2.z
      - (quatToMat q).r1.z * (quatToMat q).r2.y := by
    show 1 - 2 * (q.y ^ 2 + q.z ^ 2)
        = (1 - 2 * (q.x ^ 2 + q.z ^ 2)) * (1 - 2 * (q.x ^ 2 + q.y ^ 2))
          - (2 * (q.y * q.z - q.w * q.x)) * (2 * (q.y * q.z + q.w * q.x))
    linear_combination (-4 * q.x ^ 2) * hq2
  have hc10 : (quatToMat q).r1.x = (quatToMat q).r2.y * (quatToMat q).r0.z
      - (quatToMat q).r2.z * (quatToMat q).r0.y := by
    show 2 * (q.x * q.y + q.w * q.z)
        = (2 * (q.y * q.z + q.w * q.x)) * (2 * (q.x * q.z + q.w * q.y))
          - (1 - 2 * (q.x ^ 2 + q.y ^ 2)) * (2 * (q.x * q.y - q.w * q.z))
    linear_combination (-4 * q.x * q.y) * hq2
  exact euler_reconstruct_entries (quatToMat q).r0.x (quatToMat q).r0.y
    (quatToMat q).r0.z (quatToMat q).r1.x (quatToMat q).r1.y (quatToMat q).r1.z
    (quatToMat q).r2.x (quatToMat q).r2.y (quatToMat q).r2.z
    hrow2 hcol0 ho02 ho12 hc00 hc10 h22 h00

/-- C7 amended: the calibration-application step (`as_euler('xyz')`, lowercase
sequence) decomposes the anatomical orientation into an EXTRINSIC x-y-z
(fixed-axis) Euler triple `(a, b, c)` — equivalently an intrinsic Z-Y-X
sequence read in reverse — with `anatomical = Rz c · Ry b · Rx a`, the
components still being the (x-angle, y-angle, z-angle) in that order.  Stated
away from the gimbal branch of the decomposition. -/
theorem calibration_euler_extrinsic (raw_q q_cal : Quat)
    (hraw : qnormSq raw_q = 1) (hcal : qnormSq q_cal = 1)
    (h22 : 0 < (quatToMat (apply_calibration raw_q q_cal)).r2.z)
    (h00 : 0 < (quatToMat (apply_calibration raw_q q_cal)).r0.x) :
    extrinsicXYZ (calibration_euler raw_q q_cal)
      = quatToMat (apply_calibration raw_q q_cal) := by
  unfold calibration_euler
  exact euler_reconstruct _ (qnormSq_apply_calibration raw_q q_cal hraw hcal)
    h22 h00

theorem calibration_euler_extrinsic_witness :
    (qnormSq ⟨(4:ℝ)/5, 3/5, 0, 0⟩ = 1 ∧ qnormSq qOne = 1
      ∧ 0 < (quatToMat (apply_calibration ⟨(4:ℝ)/5, 3/5, 0, 0⟩ qOne)).r2.z
      ∧ 0 < (quatToMat (apply_calibration ⟨(4:ℝ)/5, 3/5, 0, 0⟩ qOne)).r0.x)
    ∧ extrinsicXYZ (calibration_euler ⟨(4:ℝ)/5, 3/5, 0, 0⟩ qOne)
        = quatToMat (apply_calibration ⟨(4:ℝ)/5, 3/5, 0, 0⟩ qOne) := by
  have happ : apply_calibration ⟨(4:ℝ)/5, 3/5, 0, 0⟩ qOne
      = ⟨(4:ℝ)/5, 3/5, 0, 0⟩ := by
    unfold apply_calibration
    rw [qnormalize_of_unit (show qnormSq qOne = 1 by norm_num [qnormSq, qOne]),
      qnormalize_of_unit
        (show qnormSq (⟨(4:ℝ)/5, 3/5, 0, 0⟩ : Quat) = 1 by norm_num [qnormSq]),
      qconj_qOne, qmul_one,
      qnormalize_of_unit
        (show qnormSq (⟨(4:ℝ)/5, 3/5, 0, 0⟩ : Quat) = 1 by norm_num [qnormSq])]
  have h22 : 0 < (quatToMat (apply_calibration ⟨(4:ℝ)/5, 3/5, 0, 0⟩ qOne)).r2.z := by
    rw [happ]
    norm_num [quatToMat]
  have h00 : 0 < (quatToMat (apply_calibration ⟨(4:ℝ)/5, 3/5, 0, 0⟩ qOne)).r0.x := by
    rw [happ]
    norm_num [quatToMat]
  exact ⟨⟨by norm_num [qnormSq], by norm_num [qnormSq, qOne], h22, h00⟩,
    calibration_euler_extrinsic _ _ (by norm_num [qnormSq])
      (by norm_num [qnormSq, qOne]) h22 h00⟩

end ElectroFly
